import Mathlib

/-!
# go-mqtt-broker: topic tokenizers and the length-prefixed string encoder

A shallow embedding of `internal/broker/topics/parseTopic.go` and
`internal/protocol/helpers.go`.

* A byte is a natural number (the tokenizers only compare bytes for equality,
  the encoder reduces the bytes it computes modulo 256).  The tokenizers only
  read their argument, a `List Byte`.  The encoder writes: there a byte slice
  is a window (`GoSlice`) of one memory (`Mem`), so that the string to encode
  and the buffer may share cells.
* A Go `int` is an `Int`.  Every value the code computes is between `-1` and
  `len + 2`, so 64-bit wrap-around never happens and is not modelled.
* An index expression `b[i]` and a slice expression `b[lo:hi]` are checked:
  outside their bounds they give a `Fault`, the model of a Go run-time panic.
* A `for` loop is a function that is recursive on a fuel counter; running out
  of fuel is the fault `fuelExhausted`, distinct from every result of the code.
-/

namespace MqttBroker

/-- One byte of a Go byte slice or string. -/
abbrev Byte := Nat

/-- The byte `'/'`, the level separator. -/
abbrev slash : Byte := 47
/-- The byte `'+'`, the single-level wildcard. -/
abbrev plus : Byte := 43
/-- The byte `'#'`, the multi-level wildcard. -/
abbrev hash : Byte := 35

/-- The ways a run of the Go code can fail to return. -/
inductive Fault where
  | indexOutOfRange
  | sliceOutOfRange
  | fuelExhausted
  deriving DecidableEq, Repr

/-- The result of running a piece of Go code: a value or a fault. -/
inductive Exec (α : Type) where
  | ret (a : α)
  | fault (f : Fault)
  deriving DecidableEq, Repr

/-- Sequencing of two pieces of Go code. -/
def Exec.bind {α β : Type} (x : Exec α) (f : α → Exec β) : Exec β :=
  match x with
  | .ret a => f a
  | .fault e => .fault e

/-- Go index expression `b[i]`: panics unless `0 <= i < len(b)`. -/
def index (b : List Byte) (i : Int) : Exec Byte :=
  if 0 ≤ i then
    match b[i.toNat]? with
    | some c => .ret c
    | none => .fault .indexOutOfRange
  else .fault .indexOutOfRange

/-- Go slice expression `b[lo:hi]` (converted to a string, which copies the
bytes): panics unless `0 <= lo <= hi <= len(b)`. -/
def slice (b : List Byte) (lo hi : Int) : Exec (List Byte) :=
  if 0 ≤ lo ∧ lo ≤ hi ∧ hi ≤ (b.length : Int) then
    .ret ((b.drop lo.toNat).take (hi.toNat - lo.toNat))
  else .fault .sliceOutOfRange

namespace topics

/-- The only error value of the package, `ErrInvalidTopicName`. -/
inductive Error where
  | ErrInvalidTopicName
  deriving DecidableEq, Repr

/-- `MatchType`: exact match, single-level or multi-level. -/
inductive MatchType where
  | ExactMatch
  | SingleLevelMatch
  | MultiLevelMatch
  deriving DecidableEq, Repr

/-- `TopicMatch`: one level of a topic filter. -/
structure TopicMatch where
  Value : List Byte
  MatchType : MatchType
  deriving DecidableEq, Repr

/-- The three results `(topics, hasWildcard, err)` of `ParseTopic`; a nil
slice is the empty list, a nil error is `none`. -/
abbrev ParseTopicResult := List TopicMatch × Bool × Option Error

/-- The statement `return nil, false, ErrInvalidTopicName`. -/
def invalidTopic : ParseTopicResult := ([], false, some Error.ErrInvalidTopicName)

/-- The scan loop of `ParseTopic` (lines 37-83) followed by the code after it
(lines 84-90).  `i`, `frm` (the variable `from`), `topics` and `hasWildcard`
are the local variables at the loop head. -/
def ParseTopic.loop (b : List Byte) (last : Int) :
    Nat → Int → Int → List TopicMatch → Bool → Exec ParseTopicResult
  | 0, _, _, _, _ => .fault .fuelExhausted
  | fuel + 1, i, frm, topics, hasWildcard =>
    if i < (b.length : Int) then
      (index b i).bind fun c =>
      if c = 0 then .ret invalidTopic
      else if c = hash then
        if i ≠ last then .ret invalidTopic
        else .ret (topics ++ [⟨[hash], .MultiLevelMatch⟩], true, none)
      else if c = plus then
        -- hasWildcard = true
        (if i ≠ last then (index b (i + 1)).bind fun n => .ret (decide (n ≠ slash))
          else .ret false).bind fun nextBad =>
        if nextBad then .ret invalidTopic
        else
          (if i ≠ 0 then (index b (i - 1)).bind fun p => .ret (decide (p ≠ slash))
            else .ret false).bind fun prevBad =>
          if prevBad then .ret invalidTopic
          else
            ParseTopic.loop b last fuel (i + 2) (i + 2)
              (topics ++ [⟨[plus], .SingleLevelMatch⟩]) true
      else if c = slash then
        (slice b frm i).bind fun v =>
        ParseTopic.loop b last fuel (i + 1) (i + 1)
          (topics ++ [⟨v, .ExactMatch⟩]) hasWildcard
      else ParseTopic.loop b last fuel (i + 1) frm topics hasWildcard
    else
      (if frm < (b.length : Int) then .ret true
        else (index b last).bind fun c => .ret (decide (c = slash))).bind fun tail =>
      if tail then
        (slice b frm i).bind fun v =>
        .ret (topics ++ [⟨v, .ExactMatch⟩], hasWildcard, none)
      else .ret (topics, hasWildcard, none)

/-- `ParseTopic`: the tokenizer for topic filters.  The loop body runs at most
`len(b)` times, so `len(b) + 1` units of fuel reach the code after the loop. -/
def ParseTopic (b : List Byte) : Exec ParseTopicResult :=
  if b.length = 0 then .ret invalidTopic
  else ParseTopic.loop b ((b.length : Int) - 1) (b.length + 1) 0 0 [] false

/-- The two results `(topics, err)` of `ParseTopicName`. -/
abbrev ParseTopicNameResult := List (List Byte) × Option Error

/-- The scan loop of `ParseTopicName` (lines 103-114) followed by the code
after it (lines 115-118). -/
def ParseTopicName.loop (b : List Byte) :
    Nat → Int → Int → List (List Byte) → Exec ParseTopicNameResult
  | 0, _, _, _ => .fault .fuelExhausted
  | fuel + 1, i, frm, topics =>
    if i < (b.length : Int) then
      (index b i).bind fun c =>
      if c = hash ∨ c = plus ∨ c = 0 then .ret ([], some Error.ErrInvalidTopicName)
      else if c = slash then
        (slice b frm i).bind fun v =>
        ParseTopicName.loop b fuel (i + 1) (i + 1) (topics ++ [v])
      else ParseTopicName.loop b fuel (i + 1) frm topics
    else
      (if frm < (b.length : Int) then .ret true
        else (index b ((b.length : Int) - 1)).bind fun c =>
          .ret (decide (c = slash))).bind fun tail =>
      if tail then
        (slice b frm (b.length : Int)).bind fun v => .ret (topics ++ [v], none)
      else .ret (topics, none)

/-- `ParseTopicName`: the tokenizer for topic names (no wildcards). -/
def ParseTopicName (b : List Byte) : Exec ParseTopicNameResult :=
  if b.length = 0 then .ret ([], some Error.ErrInvalidTopicName)
  else ParseTopicName.loop b (b.length + 1) 0 0 []

/-- Rendering of a token sequence as in the test helper `stringifyTopicToken`:
the `Value` fields joined by `'/'`. -/
def stringifyTopicToken (tokens : List TopicMatch) : List Byte :=
  [slash].intercalate (tokens.map TopicMatch.Value)

/-! ## The scan read off the remaining input

`scan prev cur rest` is the scan of `ParseTopic` seen from a loop head: `rest`
is the input from index `i` on, `cur` is `b[from:i]` and `prev` is `b[i-1]`
(`none` when `i = 0`).  `ParseTopic.loop_eq_scan` proves that the index-based
loop computes it; the lemmas on the tokenizer are then inductions on `rest`. -/

/-- The token of a single-level wildcard. -/
abbrev plusToken : TopicMatch := ⟨[plus], .SingleLevelMatch⟩
/-- The token of the multi-level wildcard. -/
abbrev hashToken : TopicMatch := ⟨[hash], .MultiLevelMatch⟩

/-- The test `i != 0 && b[i-1] != '/'` on the byte before the position. -/
def prevBad : Option Byte → Bool
  | none => false
  | some p => decide (p ≠ slash)

/-- The tokens and wildcard flag produced from a loop head on; `none` is the
return of `ErrInvalidTopicName`. -/
def scan (prev : Option Byte) (cur : List Byte) :
    List Byte → Option (List TopicMatch × Bool)
  | [] => some ([⟨cur, .ExactMatch⟩], false)
  | c :: rest =>
    if c = 0 then none
    else if c = hash then
      if rest = [] then some ([hashToken], true) else none
    else if c = plus then
      match rest with
      | [] => if prevBad prev then none else some ([plusToken], true)
      | n :: rest' =>
        if n ≠ slash then none
        else if prevBad prev then none
        else (scan (some slash) [] rest').map fun r => (plusToken :: r.1, true)
    else if c = slash then
      (scan (some slash) [] rest).map fun r => (⟨cur, .ExactMatch⟩ :: r.1, r.2)
    else scan (some c) (cur ++ [c]) rest

/-- The result of `ParseTopic` when the scan from a loop head gives `r` and the
variables hold `topics` and `hasWildcard` there. -/
def pack (topics : List TopicMatch) (hasWildcard : Bool) :
    Option (List TopicMatch × Bool) → ParseTopicResult
  | none => invalidTopic
  | some r => (topics ++ r.1, hasWildcard || r.2, none)

/-- The levels produced by `ParseTopicName` from a loop head on (`cur` is
`b[from:i]`, the argument the input from index `i` on); `none` is the return
of `ErrInvalidTopicName`. -/
def scanName (cur : List Byte) : List Byte → Option (List (List Byte))
  | [] => some [cur]
  | c :: rest =>
    if c = hash ∨ c = plus ∨ c = 0 then none
    else if c = slash then (scanName [] rest).map fun r => cur :: r
    else scanName (cur ++ [c]) rest

/-- The result of `ParseTopicName` when the scan from a loop head gives `r`
and the variable `topics` holds `topics` there. -/
def packName (topics : List (List Byte)) :
    Option (List (List Byte)) → ParseTopicNameResult
  | none => ([], some Error.ErrInvalidTopicName)
  | some r => (topics ++ r, none)

/-- The inputs `ParseTopic` rejects, read off the input from a position on:
a NUL byte, a `'#'` that is not the last byte, a `'+'` whose neighbour on
either side exists and is not `'/'`.  `prev` is the byte before the position. -/
def Invalid (prev : Option Byte) : List Byte → Prop
  | [] => False
  | c :: rest =>
    c = 0 ∨ (c = hash ∧ rest ≠ []) ∨
    (c = plus ∧ (prevBad prev = true ∨ ∃ n, rest.head? = some n ∧ n ≠ slash)) ∨
    Invalid (some c) rest

/-- The byte before index `i` of `l`, when `prev` is the byte before `l`. -/
def byteBefore (prev : Option Byte) (l : List Byte) : Nat → Option Byte
  | 0 => prev
  | j + 1 => l[j]?

end topics

namespace protocol

/-- The error values of the package. -/
inductive Error where
  | ErrInvalidPacket
  | ErrShortBuffer
  deriving DecidableEq, Repr

/-- The memory that the byte slices of a run point into, one cell a byte.  Two
slices share memory where their ranges of cells overlap. -/
abbrev Mem := List Byte

/-- A Go slice value: the cell its first element is stored in and its length.
The capacity is left out: the only slice expression of the code with an upper
bound is `str[:strLen]`, whose bound is at most `len(str)`. -/
structure GoSlice where
  ptr : Nat
  len : Nat
  deriving DecidableEq, Repr

/-- Go index expression `s[i]` read from the memory, for `0 <= i < len(s)`. -/
def GoSlice.get (s : GoSlice) (mem : Mem) (i : Nat) : Option Byte :=
  mem[s.ptr + i]?

/-- The bytes a slice holds in a memory. -/
def GoSlice.bytes (s : GoSlice) (mem : Mem) : List Byte :=
  (mem.drop s.ptr).take s.len

/-- `writableBuf`: a pre-sized byte slice and the index of the last byte
written (`-1` when nothing has been written). -/
structure writableBuf where
  buf : GoSlice
  lastWriteIndex : Int
  deriving DecidableEq, Repr

/-- `newWritableBuf`. -/
def newWritableBuf (b : GoSlice) : writableBuf :=
  { buf := b, lastWriteIndex := -1 }

/-- `bytesWritten`. -/
def writableBuf.bytesWritten (b : writableBuf) : Int :=
  b.lastWriteIndex + 1

/-- Go assignment `s[i] = c`: panics unless `0 <= i < len(s)`, else stores `c`
in the cell of `s[i]`. -/
def store (mem : Mem) (s : GoSlice) (i : Int) (c : Byte) : Exec Mem :=
  if 0 ≤ i ∧ i < (s.len : Int) then .ret (mem.set (s.ptr + i.toNat) c)
  else .fault .indexOutOfRange

/-- Go slice expression `s[lo:]`: panics unless `0 <= lo <= len(s)`. -/
def sliceFrom (s : GoSlice) (lo : Int) : Exec GoSlice :=
  if 0 ≤ lo ∧ lo ≤ (s.len : Int) then
    .ret { ptr := s.ptr + lo.toNat, len := s.len - lo.toNat }
  else .fault .sliceOutOfRange

/-- Go slice expression `s[:hi]`: panics unless `0 <= hi` and `hi` is within
the bound (here `len(s)`). -/
def sliceTo (s : GoSlice) (hi : Int) : Exec GoSlice :=
  if 0 ≤ hi ∧ hi ≤ (s.len : Int) then .ret { ptr := s.ptr, len := hi.toNat }
  else .fault .sliceOutOfRange

/-- Go built-in `copy(dst, src)`: the first `min(len(dst), len(src))` bytes of
`src`, as they are in the memory before the call (the built-in allows the two
to overlap), are stored in the cells of `dst`; it never panics. -/
def copy (mem : Mem) (dst src : GoSlice) : Mem :=
  let n := min dst.len src.len
  mem.take dst.ptr ++ (mem.drop src.ptr).take n ++ mem.drop (dst.ptr + n)

/-- `WriteByte`: the memory and the receiver after the call and the returned
error (always nil). -/
def writableBuf.WriteByte (b : writableBuf) (mem : Mem) (c : Byte) :
    Exec (Mem × writableBuf × Option Error) :=
  let i := b.lastWriteIndex + 1
  (store mem b.buf i c).bind fun mem' =>
  .ret (mem', { buf := b.buf, lastWriteIndex := i }, none)

/-- `Write`: the memory and the receiver after the call, `n` and the returned
error (always nil). -/
def writableBuf.Write (b : writableBuf) (mem : Mem) (p : GoSlice) :
    Exec (Mem × writableBuf × Int × Option Error) :=
  let n : Int := p.len
  (sliceFrom b.buf (b.lastWriteIndex + 1)).bind fun dst =>
  .ret (copy mem dst p, { buf := b.buf, lastWriteIndex := b.lastWriteIndex + n }, n, none)

/-- `writeMQTTStr`: the memory and the receiver after the call.
`uint16(len(str))` is `len(str) % 65536`, `byte(x)` is `x % 256`.  The bytes
of `str` are read by `Write`, after the two calls of `WriteByte`. -/
def writableBuf.writeMQTTStr (b : writableBuf) (mem : Mem) (str : GoSlice) :
    Exec (Mem × writableBuf) :=
  let strLen : Nat := str.len % 65536
  (b.WriteByte mem ((strLen >>> 8) % 256)).bind fun r1 =>
  (r1.2.1.WriteByte r1.1 (strLen % 256)).bind fun r2 =>
  (sliceTo str (strLen : Int)).bind fun s =>
  (r2.2.1.Write r2.1 s).bind fun r3 =>
  .ret (r3.1, r3.2.1)

/-- The memory after `writeMQTTStr(str)` when `k` bytes had been written to a
buffer starting at cell `bp` and the buffer has room: the two length bytes are
stored, then the first `len(str) % 65536` bytes of `str` are copied behind
them. -/
def written (mem : Mem) (bp k : Nat) (str : GoSlice) : Mem :=
  let n := str.len % 65536
  let mem2 := (mem.set (bp + k) ((n >>> 8) % 256)).set (bp + k + 1) (n % 256)
  mem2.take (bp + k + 2) ++ (mem2.drop str.ptr).take n ++ mem2.drop (bp + k + 2 + n)

/-- A string of 65536 bytes `'A'`, one byte longer than an MQTT string may be. -/
def longString : List Byte := List.replicate 65536 65

end protocol

namespace broker

open topics

/-- Modelled from the spec: the identity of a Feed object (the topic map of
the repository is not among the sources).  Feeds are compared by reference;
a fresh feed is a number no feed of the map has. -/
abbrev Feed := Nat

/-- Modelled from the spec: the slot of a trie node that a level token
selects, the literal-keyed child mapping or one of the two special wildcard
slots. -/
inductive Key where
  | literal (value : List Byte)
  | single
  | multi
  deriving DecidableEq, Repr

/-- Modelled from the spec: "For a `Literal` token, ... the child keyed by
that literal text.  For a `SingleWildcard`/`MultiWildcard` token, ... the
corresponding special child slot." -/
def keyOf (t : TopicMatch) : Key :=
  match t.MatchType with
  | .ExactMatch => .literal t.Value
  | .SingleLevelMatch => .single
  | .MultiLevelMatch => .multi

/-- Modelled from the spec: a Trie Node, with its optional Feed and its
children (the literal mapping and the two wildcard slots, as one function of
the slot); `absent` is a child that does not exist. -/
inductive Node where
  | absent : Node
  | node (feed : Option Feed) (child : Key → Node) : Node

/-- Modelled from the spec: the Feed a node holds, if it exists and holds one. -/
def Node.feed : Node → Option Feed
  | .absent => none
  | .node f _ => f

/-- Modelled from the spec: the child of a node in a slot (`absent` when the
node or the child does not exist). -/
def Node.child : Node → Key → Node
  | .absent, _ => .absent
  | .node _ c, k => c k

/-- Modelled from the spec: the children of a node after the child in one
slot is created or replaced. -/
def setChild (c : Key → Node) (k : Key) (n : Node) : Key → Node :=
  fun k' => if k' = k then n else c k'

/-- Modelled from the spec: the descent of `InitFeedByTopic`, "descends the
tree one token at a time", creating or reusing the child of each token; "at
the terminal node, if no Feed is installed yet, creates one and returns
`(newFeed, false)`; if a Feed already exists, returns `(existingFeed, true)`".
`fresh` is the feed to install when one is created. -/
def Node.initFeed (fresh : Feed) : List TopicMatch → Node → Node × Feed × Bool
  | [], n =>
    match n.feed with
    | some f => (n, f, true)
    | none => (.node (some fresh) n.child, fresh, false)
  | t :: ts, n =>
    let r := Node.initFeed fresh ts (n.child (keyOf t))
    (.node n.feed (setChild n.child (keyOf t) r.1), r.2.1, r.2.2)

/-- Modelled from the spec: the descent of `RemoveFeedByTopic`, "locates the
terminal node for the token sequence; if it holds a Feed, detaches and returns
it, otherwise returns nothing".  Pruning of empty nodes, which the spec calls
an optimization, is left out. -/
def Node.removeFeed : List TopicMatch → Node → Node × Option Feed
  | _, .absent => (.absent, none)
  | [], .node f c => (.node none c, f)
  | t :: ts, .node f c =>
    let r := Node.removeFeed ts (c (keyOf t))
    (.node f (setChild c (keyOf t) r.1), r.2)

/-- Modelled from the spec: the descent of `GetFeedsThatMatchTopic` at a node
and the remaining publish levels: (1) the Feed of the `MultiWildcard` child,
(2) at the end of the levels the Feed of the node, (3) otherwise the matches
of the literal child keyed by the level's value and those of the
`SingleWildcard` child, both on the next level. -/
def Node.matchFeeds : List TopicMatch → Node → List Feed
  | [], n => (n.child .multi).feed.toList ++ n.feed.toList
  | t :: rest, n =>
    (n.child .multi).feed.toList ++
      (Node.matchFeeds rest (n.child (.literal t.Value)) ++
        Node.matchFeeds rest (n.child .single))

/-- Modelled from the spec: the Topic Map, its root node and the next fresh
feed identity. -/
structure TopicMap where
  root : Node
  nextFeed : Feed

/-- Modelled from the spec: a fresh Topic Map, a root node without Feed and
without children. -/
def NewTopicMap : TopicMap :=
  { root := .node none (fun _ => .absent), nextFeed := 0 }

/-- Modelled from the spec: `InitFeedByTopic(tokens) -> (feed, alreadyExisted)`,
with the map after the call. -/
def TopicMap.InitFeedByTopic (m : TopicMap) (tokens : List TopicMatch) :
    TopicMap × Feed × Bool :=
  let r := m.root.initFeed m.nextFeed tokens
  ({ root := r.1, nextFeed := if r.2.2 then m.nextFeed else m.nextFeed + 1 }, r.2.1, r.2.2)

/-- Modelled from the spec: `RemoveFeedByTopic(tokens) -> feed|absent`, with
the map after the call. -/
def TopicMap.RemoveFeedByTopic (m : TopicMap) (tokens : List TopicMatch) :
    TopicMap × Option Feed :=
  let r := m.root.removeFeed tokens
  ({ root := r.1, nextFeed := m.nextFeed }, r.2)

/-- Modelled from the spec: `GetFeedsThatMatchTopic(publishTokens)`. -/
def TopicMap.GetFeedsThatMatchTopic (m : TopicMap) (publishTokens : List TopicMatch) :
    List Feed :=
  m.root.matchFeeds publishTokens

/-- Registering filters one after the other with `InitFeedByTopic`: the map
after the calls and each filter with the feed its call returned. -/
def registerAll : TopicMap → List (List TopicMatch) → TopicMap × List (List TopicMatch × Feed)
  | m, [] => (m, [])
  | m, f :: fs =>
    let r := m.InitFeedByTopic f
    let rr := registerAll r.1 fs
    (rr.1, (f, r.2.1) :: rr.2)

/-- One level of a filter against one level of a publish topic: "a `'+'` token
matches any one level, a literal token matches only the equal level text". -/
def levelMatches (f p : TopicMatch) : Bool :=
  match f.MatchType with
  | .ExactMatch => decide (f.Value = p.Value)
  | .SingleLevelMatch => true
  | .MultiLevelMatch => false

/-- Two token sequences of the same length that match level by level. -/
def levelsMatch : List TopicMatch → List TopicMatch → Bool
  | [], [] => true
  | f :: fs, p :: ps => levelMatches f p && levelsMatch fs ps
  | _, _ => false

/-- A filter whose last token is the multi-level wildcard. -/
def endsInHash (f : List TopicMatch) : Bool :=
  match f.getLast? with
  | some l => decide (l.MatchType = MatchType.MultiLevelMatch)
  | none => false

/-- The matching of a filter `f` and a publish token sequence `p`: "either `f`
ends in `'#'` and the tokens of `f` before `'#'` match a prefix of `p` level
by level, or `f` has the same length as `p` and matches it level by level". -/
def filterMatches (f p : List TopicMatch) : Bool :=
  (endsInHash f && levelsMatch f.dropLast (p.take (f.length - 1))) || levelsMatch f p

/-- A call of one of the two mutating operations. -/
inductive Op where
  | init (tokens : List TopicMatch)
  | remove (tokens : List TopicMatch)
  deriving DecidableEq, Repr

/-- The map after a call. -/
def TopicMap.apply (m : TopicMap) : Op → TopicMap
  | .init tokens => (m.InitFeedByTopic tokens).1
  | .remove tokens => (m.RemoveFeedByTopic tokens).1

/-- The map after a sequence of calls. -/
def run (m : TopicMap) (ops : List Op) : TopicMap :=
  ops.foldl TopicMap.apply m

/-- The feed at the end of a path of slots from a node, if one is installed
there. -/
def Node.lookup : List Key → Node → Option Feed
  | [], n => n.feed
  | k :: ks, n => Node.lookup ks (n.child k)

/-- Distinct paths of a node hold distinct feeds. -/
def Node.Inj (n : Node) : Prop :=
  ∀ ks ks' feed, Node.lookup ks n = some feed → Node.lookup ks' n = some feed → ks = ks'

/-- The invariant of a topic map: distinct paths hold distinct feeds, and the
next fresh feed identity is above every installed feed. -/
def TopicMap.WF (m : TopicMap) : Prop :=
  m.root.Inj ∧ ∀ ks feed, Node.lookup ks m.root = some feed → feed < m.nextFeed

/-- The generator of the test `AllPermutations` (`traverse` in
`generateTokenWildcardPermutations`): every level kept or replaced by `'+'`,
and every prefix followed by `'#'`, in the order of emission. -/
def traverse : List TopicMatch → List TopicMatch → List (List TopicMatch)
  | [], temp => [temp, temp ++ [hashToken]]
  | t :: tokens, temp =>
    traverse tokens (temp ++ [t]) ++ traverse tokens (temp ++ [plusToken]) ++
      [temp ++ [hashToken]]

/-- A literal level token. -/
abbrev lit (v : List Byte) : TopicMatch := ⟨v, .ExactMatch⟩

/-- The tokens `ParseTopic` returns for a topic string of the tests (no token
when it does not succeed). -/
def tokensOf (b : List Byte) : List TopicMatch :=
  match ParseTopic b with
  | .ret (ts, _, none) => ts
  | _ => []

/-- The publish topic `"foo/bar/quz"` of the test `Basics`. -/
def basicsPublish : List Byte := [102, 111, 111, 47, 98, 97, 114, 47, 113, 117, 122]

/-- The filters `"#"`, `"foo/bar/quz"`, `"foo/bar/+"`, `"foo/bar/quz/#"` of the
test `Basics`, which should match. -/
def basicsShouldMatch : List (List Byte) :=
  [[35],
   [102, 111, 111, 47, 98, 97, 114, 47, 113, 117, 122],
   [102, 111, 111, 47, 98, 97, 114, 47, 43],
   [102, 111, 111, 47, 98, 97, 114, 47, 113, 117, 122, 47, 35]]

/-- The filters `"+"`, `"+/+"`, `"foo/+/quz/+"`, `"foo/+/quzz"`, `"foo/bux/#"`,
`"ll/+/"` of the test `Basics`, which should not match. -/
def basicsShouldNotMatch : List (List Byte) :=
  [[43],
   [43, 47, 43],
   [102, 111, 111, 47, 43, 47, 113, 117, 122, 47, 43],
   [102, 111, 111, 47, 43, 47, 113, 117, 122, 122],
   [102, 111, 111, 47, 98, 117, 120, 47, 35],
   [108, 108, 47, 43, 47]]

/-- The topic `"aaa/bbb/ccc/ddd/eee/fff"` of the test `AllPermutations`. -/
def permutationsTopic : List Byte :=
  [97, 97, 97, 47, 98, 98, 98, 47, 99, 99, 99, 47, 100, 100, 100, 47,
   101, 101, 101, 47, 102, 102, 102]

end broker

end MqttBroker

namespace MqttBroker

@[simp] theorem bind_ret {α β : Type} (a : α) (f : α → Exec β) :
    (Exec.ret a).bind f = f a := rfl

theorem index_at (done rest : List Byte) (c : Byte) :
    index (done ++ c :: rest) (done.length : Int) = .ret c := by
  have h : (done ++ c :: rest)[done.length]? = some c := by
    rw [List.getElem?_append_right (le_refl _)]; simp
  simp [index, h]

theorem index_at_succ (done rest : List Byte) (c n : Byte) :
    index (done ++ c :: n :: rest) ((done.length : Int) + 1) = .ret n := by
  have h : ((done.length : Int) + 1) = ((done ++ [c]).length : Int) := by simp
  have h2 : done ++ c :: n :: rest = (done ++ [c]) ++ n :: rest := by simp
  rw [h, h2, index_at]

theorem index_at_pred (d rest : List Byte) (p : Byte) :
    index ((d ++ [p]) ++ rest) (((d ++ [p]).length : Int) - 1) = .ret p := by
  have h : (((d ++ [p]).length : Int) - 1) = (d.length : Int) := by simp
  rw [h, List.append_assoc, List.singleton_append, index_at]

theorem index_before (done rest : List Byte) (p : Byte)
    (h : done.getLast? = some p) :
    index (done ++ rest) ((done.length : Int) - 1) = .ret p := by
  rcases List.eq_nil_or_concat done with hnil | ⟨d, q, hd⟩
  · subst hnil; simp at h
  · subst hd
    simp only [List.concat_eq_append] at h ⊢
    simp at h
    subst h
    exact index_at_pred d rest q

theorem slice_at (done rest : List Byte) (frm : Int) (h0 : 0 ≤ frm)
    (h1 : frm ≤ (done.length : Int)) :
    slice (done ++ rest) frm (done.length : Int) = .ret (done.drop frm.toNat) := by
  obtain ⟨k, rfl⟩ := Int.eq_ofNat_of_zero_le h0
  have hk : k ≤ done.length := by exact_mod_cast h1
  simp only [slice, Int.toNat_ofNat]
  rw [if_pos (by simp; omega)]
  congr 1
  rw [List.drop_append_of_le_length hk, List.take_append_of_le_length (by simp)]
  simp

namespace topics

theorem pack_map_cons (topics : List TopicMatch) (hw : Bool) (t : TopicMatch)
    (r : Option (List TopicMatch × Bool)) :
    pack (topics ++ [t]) hw r = pack topics hw (r.map fun x => (t :: x.1, x.2)) := by
  cases r <;> simp [pack]

theorem pack_map_cons_true (topics : List TopicMatch) (hw : Bool) (t : TopicMatch)
    (r : Option (List TopicMatch × Bool)) :
    pack (topics ++ [t]) true r = pack topics hw (r.map fun x => (t :: x.1, true)) := by
  cases r <;> simp [pack]

theorem scan_nil (prev : Option Byte) (cur : List Byte) :
    scan prev cur [] = some ([⟨cur, .ExactMatch⟩], false) := by
  rw [scan.eq_def]

theorem scan_zero (prev : Option Byte) (cur rest : List Byte) :
    scan prev cur (0 :: rest) = none := by
  rw [scan.eq_def]; simp

theorem scan_hash_nil (prev : Option Byte) (cur : List Byte) :
    scan prev cur [hash] = some ([hashToken], true) := by
  rw [scan.eq_def]; simp

theorem scan_hash_cons (prev : Option Byte) (cur rest : List Byte) (h : rest ≠ []) :
    scan prev cur (hash :: rest) = none := by
  rw [scan.eq_def]; simp [h]

theorem scan_plus_nil (prev : Option Byte) (cur : List Byte) :
    scan prev cur [plus] = if prevBad prev then none else some ([plusToken], true) := by
  rw [scan.eq_def]; simp

theorem scan_plus_cons (prev : Option Byte) (cur rest : List Byte) (n : Byte) :
    scan prev cur (plus :: n :: rest) =
      if n ≠ slash then none
      else if prevBad prev then none
      else (scan (some slash) [] rest).map fun r => (plusToken :: r.1, true) := by
  rw [scan.eq_def]; simp

theorem scan_slash (prev : Option Byte) (cur rest : List Byte) :
    scan prev cur (slash :: rest) =
      (scan (some slash) [] rest).map fun r => (⟨cur, .ExactMatch⟩ :: r.1, r.2) := by
  rw [scan.eq_def]; simp

theorem scan_other (prev : Option Byte) (cur rest : List Byte) (c : Byte)
    (h0 : c ≠ 0) (hh : c ≠ hash) (hp : c ≠ plus) (hs : c ≠ slash) :
    scan prev cur (c :: rest) = scan (some c) (cur ++ [c]) rest := by
  rw [scan.eq_def]; simp [h0, hh, hp, hs]

theorem prev_check (done rest : List Byte) :
    (if (done.length : Int) ≠ 0 then
        (index (done ++ rest) ((done.length : Int) - 1)).bind fun p =>
          .ret (decide (p ≠ slash))
      else .ret false) = Exec.ret (prevBad done.getLast?) := by
  rcases List.eq_nil_or_concat done with hnil | ⟨d, q, hd⟩
  · subst hnil; simp [prevBad]
  · subst hd
    simp only [List.concat_eq_append]
    have hl : (d ++ [q]).getLast? = some q := by simp
    rw [if_pos (by simp; omega), index_before _ rest q hl, bind_ret, hl]
    rfl

theorem ParseTopic.loop_eq_scan : ∀ (fuel : Nat) (done rest : List Byte) (frm : Int)
    (topics : List TopicMatch) (hw : Bool),
    done ++ rest ≠ [] → 0 ≤ frm → frm ≤ (done.length : Int) →
    (frm = (done.length : Int) → done = [] ∨ done.getLast? = some slash) →
    rest.length < fuel →
    ParseTopic.loop (done ++ rest) (((done ++ rest).length : Int) - 1) fuel
        (done.length : Int) frm topics hw
      = .ret (pack topics hw (scan done.getLast? (done.drop frm.toNat) rest)) := by
  intro fuel
  induction fuel with
  | zero => intro _ rest _ _ _ _ _ _ _ h; omega
  | succ fuel ih =>
    intro done rest frm topics hw hne h0 h1 hinv hfuel
    cases rest with
    | nil =>
      simp only [List.append_nil] at hne ⊢
      rw [ParseTopic.loop, if_neg (lt_irrefl _)]
      have hs := slice_at done [] frm h0 h1
      simp only [List.append_nil] at hs
      by_cases hlt : frm < (done.length : Int)
      · rw [if_pos hlt, bind_ret, if_pos rfl, hs, bind_ret]
        simp [scan, pack]
      · have heq : frm = (done.length : Int) := le_antisymm h1 (not_lt.mp hlt)
        rcases hinv heq with hnil | hlast
        · exact absurd hnil hne
        · have hi := index_before done [] slash hlast
          simp only [List.append_nil] at hi
          rw [if_neg hlt, hi, bind_ret]
          simp [hs, scan, pack]
    | cons c rest =>
      have hlen : (done.length : Int) < ((done ++ c :: rest).length : Int) := by
        simp
      have hfuel' : rest.length < fuel := by simpa using hfuel
      have step : ∀ (frm' : Int) (topics' : List TopicMatch) (hw' : Bool), 0 ≤ frm' →
          frm' ≤ (done.length : Int) + 1 →
          (frm' = (done.length : Int) + 1 → c = slash) →
          ParseTopic.loop (done ++ c :: rest) (((done ++ c :: rest).length : Int) - 1) fuel
            ((done.length : Int) + 1) frm' topics' hw'
          = .ret (pack topics' hw' (scan (some c) ((done ++ [c]).drop frm'.toNat) rest)) := by
        intro frm' topics' hw' a1 a2 a3
        have := ih (done ++ [c]) rest frm' topics' hw' (by simp) a1 (by simpa using a2)
          (by intro h; right; simp; exact a3 (by simpa using h)) hfuel'
        simpa using this
      rw [ParseTopic.loop, if_pos hlen, index_at, bind_ret]
      by_cases hc0 : c = 0
      · rw [if_pos hc0]; subst hc0; rw [scan_zero]; rfl
      · rw [if_neg hc0]
        by_cases hch : c = hash
        · rw [if_pos hch]
          subst hch
          by_cases hr : rest = []
          · subst hr; rw [scan_hash_nil]; simp [pack]
          · have hnl : (done.length : Int) ≠ ((done ++ hash :: rest).length : Int) - 1 := by
              cases rest with
              | nil => exact absurd rfl hr
              | cons _ _ => simp; omega
            rw [if_pos hnl, scan_hash_cons _ _ _ hr]; rfl
        · rw [if_neg hch]
          by_cases hcp : c = plus
          · rw [if_pos hcp]
            subst hcp
            have hprev := prev_check done (plus :: rest)
            cases rest with
            | nil =>
              have hl : ¬ ((done.length : Int) ≠ ((done ++ [plus]).length : Int) - 1) := by
                simp
              rw [if_neg hl, bind_ret, hprev, bind_ret, scan_plus_nil]
              cases hpb : prevBad done.getLast? with
              | true => simp [pack]
              | false =>
                obtain ⟨fuel', rfl⟩ : ∃ k, fuel = k + 1 := ⟨fuel - 1, by omega⟩
                have hidx : index (done ++ [plus]) (((done ++ [plus]).length : Int) - 1)
                    = .ret plus := by
                  have := index_before (done ++ [plus]) [] plus (by simp)
                  simpa using this
                have h1 : ¬ ((done.length : Int) + 2 < ((done ++ [plus]).length : Int)) := by
                  simp
                rw [ParseTopic.loop, if_neg h1, if_neg h1, hidx]
                simp [pack]
            | cons n rest' =>
              have hl : (done.length : Int) ≠ ((done ++ plus :: n :: rest').length : Int) - 1 := by
                simp; omega
              rw [if_pos hl, index_at_succ, bind_ret, scan_plus_cons]
              by_cases hn : n = slash
              · subst hn
                rw [hprev, bind_ret]
                cases hpb : prevBad done.getLast? with
                | true => simp [pack]
                | false =>
                  have := ih (done ++ [plus, slash]) rest' ((done.length : Int) + 2)
                    (topics ++ [plusToken]) true (by simp) (by omega) (by simp)
                    (by intro _; right; simp) (by simp at hfuel'; omega)
                  have hd : List.drop ((done.length : Int) + 2).toNat (done ++ [plus, slash])
                      = [] := by
                    have : ((done.length : Int) + 2).toNat = (done ++ [plus, slash]).length := by
                      simp
                      omega
                    rw [this, List.drop_length]
                  rw [hd] at this
                  simp only [List.append_assoc, List.cons_append, List.nil_append,
                    List.length_append, List.length_cons, List.length_nil] at this
                  simp only [List.length_append, List.length_cons]
                  have e : ((done.length + (0 + 1 + 1) : Nat) : Int) = (done.length : Int) + 2 := by
                    push_cast; ring
                  have hg : (done ++ [plus, slash]).getLast? = some slash := by simp
                  rw [e, hg, pack_map_cons_true topics hw] at this
                  rw [if_neg (by simp), bind_ret, if_neg (by simp), this, if_neg (by simp),
                    if_neg (by simp)]
              · simp [hn, pack]
          · rw [if_neg hcp]
            by_cases hcs : c = slash
            · rw [if_pos hcs, slice_at done _ frm h0 h1, bind_ret]
              subst hcs
              rw [step _ _ _ (by omega) (le_refl _) (fun _ => rfl), pack_map_cons]
              have hd : ((done ++ [slash]).drop ((done.length : Int) + 1).toNat) = [] := by
                have : ((done.length : Int) + 1).toNat = (done ++ [slash]).length := by
                  simp
                rw [this, List.drop_length]
              rw [hd, scan_slash]
            · rw [if_neg hcs, step frm topics hw h0 (by omega)
                (by intro h; omega)]
              have hd : (done ++ [c]).drop frm.toNat = done.drop frm.toNat ++ [c] := by
                apply List.drop_append_of_le_length
                omega
              rw [hd, scan_other _ _ _ _ hc0 hch hcp hcs]

theorem ParseTopic_nil : ParseTopic [] = .ret invalidTopic := rfl

theorem ParseTopic_eq_scan (b : List Byte) (hb : b ≠ []) :
    ParseTopic b = .ret (pack [] false (scan none [] b)) := by
  have hl : ¬ b.length = 0 := by
    intro h; exact hb (List.length_eq_zero.mp h)
  have := ParseTopic.loop_eq_scan (b.length + 1) [] b 0 [] false (by simpa using hb)
    (le_refl _) (by simp) (by intro _; left; rfl) (Nat.lt_succ_self _)
  rw [ParseTopic, if_neg hl]
  simpa using this

theorem scanName_nil (cur : List Byte) : scanName cur [] = some [cur] := by
  rw [scanName]

theorem scanName_bad (cur rest : List Byte) (c : Byte)
    (h : c = hash ∨ c = plus ∨ c = 0) : scanName cur (c :: rest) = none := by
  rw [scanName, if_pos h]

theorem scanName_slash (cur rest : List Byte) :
    scanName cur (slash :: rest) = (scanName [] rest).map fun r => cur :: r := by
  rw [scanName]; simp

theorem scanName_other (cur rest : List Byte) (c : Byte)
    (h : ¬ (c = hash ∨ c = plus ∨ c = 0)) (hs : c ≠ slash) :
    scanName cur (c :: rest) = scanName (cur ++ [c]) rest := by
  rw [scanName, if_neg h, if_neg hs]

theorem packName_map_cons (topics : List (List Byte)) (v : List Byte)
    (r : Option (List (List Byte))) :
    packName (topics ++ [v]) r = packName topics (r.map fun x => v :: x) := by
  cases r <;> simp [packName]

theorem ParseTopicName.loop_eq_scanName : ∀ (fuel : Nat) (done rest : List Byte) (frm : Int)
    (topics : List (List Byte)),
    done ++ rest ≠ [] → 0 ≤ frm → frm ≤ (done.length : Int) →
    (frm = (done.length : Int) → done = [] ∨ done.getLast? = some slash) →
    rest.length < fuel →
    ParseTopicName.loop (done ++ rest) fuel (done.length : Int) frm topics
      = .ret (packName topics (scanName (done.drop frm.toNat) rest)) := by
  intro fuel
  induction fuel with
  | zero => intro _ rest _ _ _ _ _ _ h; omega
  | succ fuel ih =>
    intro done rest frm topics hne h0 h1 hinv hfuel
    cases rest with
    | nil =>
      simp only [List.append_nil] at hne ⊢
      rw [ParseTopicName.loop, if_neg (lt_irrefl _)]
      have hs := slice_at done [] frm h0 h1
      simp only [List.append_nil] at hs
      by_cases hlt : frm < (done.length : Int)
      · rw [if_pos hlt, bind_ret, if_pos rfl, hs, bind_ret, scanName_nil]
        rfl
      · have heq : frm = (done.length : Int) := le_antisymm h1 (not_lt.mp hlt)
        rcases hinv heq with hnil | hlast
        · exact absurd hnil hne
        · have hi := index_before done [] slash hlast
          simp only [List.append_nil] at hi
          rw [if_neg hlt, hi, bind_ret, scanName_nil]
          simp [hs, packName]
    | cons c rest =>
      have hlen : (done.length : Int) < ((done ++ c :: rest).length : Int) := by
        simp
      have hfuel' : rest.length < fuel := by simpa using hfuel
      have step : ∀ (frm' : Int) (topics' : List (List Byte)), 0 ≤ frm' →
          frm' ≤ (done.length : Int) + 1 →
          (frm' = (done.length : Int) + 1 → c = slash) →
          ParseTopicName.loop (done ++ c :: rest) fuel ((done.length : Int) + 1) frm' topics'
          = .ret (packName topics' (scanName ((done ++ [c]).drop frm'.toNat) rest)) := by
        intro frm' topics' a1 a2 a3
        have := ih (done ++ [c]) rest frm' topics' (by simp) a1 (by simpa using a2)
          (by intro h; right; simp; exact a3 (by simpa using h)) hfuel'
        simpa using this
      rw [ParseTopicName.loop, if_pos hlen, index_at, bind_ret]
      by_cases hbad : c = hash ∨ c = plus ∨ c = 0
      · rw [if_pos hbad, scanName_bad _ _ _ hbad]; rfl
      · rw [if_neg hbad]
        by_cases hcs : c = slash
        · rw [if_pos hcs, slice_at done _ frm h0 h1, bind_ret]
          subst hcs
          rw [step _ _ (by omega) (le_refl _) (fun _ => rfl), packName_map_cons]
          have hd : ((done ++ [slash]).drop ((done.length : Int) + 1).toNat) = [] := by
            have : ((done.length : Int) + 1).toNat = (done ++ [slash]).length := by
              simp
            rw [this, List.drop_length]
          rw [hd, scanName_slash]
        · rw [if_neg hcs, step frm topics h0 (by omega) (by intro h; omega)]
          have hd : (done ++ [c]).drop frm.toNat = done.drop frm.toNat ++ [c] := by
            apply List.drop_append_of_le_length
            omega
          rw [hd, scanName_other _ _ _ hbad hcs]

theorem ParseTopicName_eq_scanName (b : List Byte) (hb : b ≠ []) :
    ParseTopicName b = .ret (packName [] (scanName [] b)) := by
  have hl : ¬ b.length = 0 := by
    intro h; exact hb (List.length_eq_zero.mp h)
  have := ParseTopicName.loop_eq_scanName (b.length + 1) [] b 0 [] (by simpa using hb)
    (le_refl _) (by simp) (by intro _; left; rfl) (Nat.lt_succ_self _)
  rw [ParseTopicName, if_neg hl]
  simpa using this

/-- Induction along the scan of `ParseTopic`. -/
theorem scan_ind (motive : Option Byte → List Byte → List Byte → Prop)
    (nil : ∀ prev cur, motive prev cur [])
    (zero : ∀ prev cur rest, motive prev cur (0 :: rest))
    (hash_nil : ∀ prev cur, motive prev cur [hash])
    (hash_cons : ∀ prev cur rest, rest ≠ [] → motive prev cur (hash :: rest))
    (plus_nil : ∀ prev cur, motive prev cur [plus])
    (plus_other : ∀ prev cur n rest, n ≠ slash → motive prev cur (plus :: n :: rest))
    (plus_slash : ∀ prev cur rest, motive (some slash) [] rest →
      motive prev cur (plus :: slash :: rest))
    (slash_cons : ∀ prev cur rest, motive (some slash) [] rest →
      motive prev cur (slash :: rest))
    (other : ∀ prev cur c rest, c ≠ 0 → c ≠ hash → c ≠ plus → c ≠ slash →
      motive (some c) (cur ++ [c]) rest → motive prev cur (c :: rest)) :
    ∀ prev cur rest, motive prev cur rest := by
  suffices h : ∀ (n : Nat) (rest : List Byte), rest.length ≤ n →
      ∀ prev cur, motive prev cur rest from
    fun prev cur rest => h rest.length rest (le_refl _) prev cur
  intro n
  induction n with
  | zero =>
    intro rest h prev cur
    have hr : rest = [] := List.length_eq_zero.mp (Nat.le_zero.mp h)
    subst hr
    exact nil prev cur
  | succ n ih =>
    intro rest h prev cur
    match rest, h with
    | [], _ => exact nil prev cur
    | c :: rest, h =>
      have hr : rest.length ≤ n := by simpa using h
      by_cases h0 : c = 0
      · subst h0; exact zero prev cur rest
      by_cases hh : c = hash
      · subst hh
        by_cases hr' : rest = []
        · subst hr'; exact hash_nil prev cur
        · exact hash_cons prev cur rest hr'
      by_cases hp : c = plus
      · subst hp
        match rest, hr with
        | [], _ => exact plus_nil prev cur
        | d :: rest', hr =>
          by_cases hd : d = slash
          · subst hd
            exact plus_slash prev cur rest' (ih rest' (by simp at hr; omega) _ _)
          · exact plus_other prev cur d rest' hd
      by_cases hs : c = slash
      · subst hs; exact slash_cons prev cur rest (ih rest hr _ _)
      exact other prev cur c rest h0 hh hp hs (ih rest hr _ _)

theorem scan_none_iff : ∀ (prev : Option Byte) (cur rest : List Byte),
    scan prev cur rest = none ↔ Invalid prev rest := by
  refine scan_ind _ ?_ ?_ ?_ ?_ ?_ ?_ ?_ ?_ ?_
  · intro prev cur; simp [scan_nil, Invalid]
  · intro prev cur rest; simp [scan_zero, Invalid]
  · intro prev cur; simp [scan_hash_nil, Invalid]
  · intro prev cur rest h; simp [scan_hash_cons _ _ _ h, Invalid, h]
  · intro prev cur; simp [scan_plus_nil, Invalid]
  · intro prev cur n rest h; simp [scan_plus_cons, Invalid, h]
  · intro prev cur rest ih
    simp [scan_plus_cons, Invalid, ih]
    cases prevBad prev <;> simp
  · intro prev cur rest ih
    simp [scan_slash, Invalid, ih]
  · intro prev cur c rest h0 hh hp hs ih
    simp [scan_other _ _ _ _ h0 hh hp hs, Invalid, ih, h0, hh, hp]

theorem exists_nat_split (P : Nat → Prop) : (∃ i, P i) ↔ P 0 ∨ ∃ j, P (j + 1) := by
  constructor
  · rintro ⟨i, hi⟩
    cases i with
    | zero => exact Or.inl hi
    | succ j => exact Or.inr ⟨j, hi⟩
  · rintro (h | ⟨j, hj⟩)
    · exact ⟨0, h⟩
    · exact ⟨j + 1, hj⟩

theorem prevBad_iff (prev : Option Byte) :
    prevBad prev = true ↔ ∃ p, prev = some p ∧ p ≠ slash := by
  cases prev <;> simp [prevBad]

theorem byteBefore_cons (prev : Option Byte) (c : Byte) (l : List Byte) (j : Nat) :
    byteBefore prev (c :: l) (j + 1) = byteBefore (some c) l j := by
  cases j <;> simp [byteBefore]

theorem Invalid_iff (prev : Option Byte) (l : List Byte) :
    Invalid prev l ↔
      (0 : Byte) ∈ l ∨ (∃ i, l[i]? = some hash ∧ i ≠ l.length - 1) ∨
      (∃ i, l[i]? = some plus ∧
        ((∃ p, byteBefore prev l i = some p ∧ p ≠ slash) ∨
          (∃ n, l[i + 1]? = some n ∧ n ≠ slash))) := by
  induction l generalizing prev with
  | nil => simp [Invalid]
  | cons c l ih =>
    have hhash : (∃ i, (c :: l)[i]? = some hash ∧ i ≠ (c :: l).length - 1) ↔
        (c = hash ∧ l ≠ []) ∨ (∃ j, l[j]? = some hash ∧ j ≠ l.length - 1) := by
      rw [exists_nat_split]
      apply or_congr
      · cases l <;> simp
      · apply exists_congr
        intro j
        constructor
        · rintro ⟨h1, h2⟩
          have h1' : l[j]? = some hash := by simpa using h1
          have hj : j < l.length := (List.getElem?_eq_some.mp h1').1
          have h2' : j + 1 ≠ l.length := by simpa using h2
          exact ⟨h1', by omega⟩
        · rintro ⟨h1, h2⟩
          have h2' : j + 1 ≠ (c :: l).length - 1 := by
            simp only [List.length_cons, Nat.add_sub_cancel]
            omega
          exact ⟨by simpa using h1, h2'⟩
    have hplus : (∃ i, (c :: l)[i]? = some plus ∧
          ((∃ p, byteBefore prev (c :: l) i = some p ∧ p ≠ slash) ∨
            (∃ n, (c :: l)[i + 1]? = some n ∧ n ≠ slash))) ↔
        (c = plus ∧ (prevBad prev = true ∨ ∃ n, l.head? = some n ∧ n ≠ slash)) ∨
        (∃ j, l[j]? = some plus ∧
          ((∃ p, byteBefore (some c) l j = some p ∧ p ≠ slash) ∨
            (∃ n, l[j + 1]? = some n ∧ n ≠ slash))) := by
      rw [exists_nat_split]
      apply or_congr
      · rw [prevBad_iff]
        cases l <;> simp [byteBefore]
      · apply exists_congr
        intro j
        rw [byteBefore_cons]
        simp
    rw [hhash, hplus, Invalid, ih (some c)]
    simp only [List.mem_cons]
    constructor
    · rintro (h | h | h | h | h | h)
      · exact Or.inl (Or.inl h.symm)
      · exact Or.inr (Or.inl (Or.inl h))
      · exact Or.inr (Or.inr (Or.inl h))
      · exact Or.inl (Or.inr h)
      · exact Or.inr (Or.inl (Or.inr h))
      · exact Or.inr (Or.inr (Or.inr h))
    · rintro ((h | h) | (h | h) | (h | h))
      · exact Or.inl h.symm
      · exact Or.inr (Or.inr (Or.inr (Or.inl h)))
      · exact Or.inr (Or.inl h)
      · exact Or.inr (Or.inr (Or.inr (Or.inr (Or.inl h))))
      · exact Or.inr (Or.inr (Or.inl h))
      · exact Or.inr (Or.inr (Or.inr (Or.inr (Or.inr h))))

theorem byteBefore_none (l : List Byte) (i : Nat) (p : Byte) :
    byteBefore none l i = some p ↔ i ≠ 0 ∧ l[i - 1]? = some p := by
  cases i <;> simp [byteBefore]

theorem scan_none_iff_index (b : List Byte) :
    scan none [] b = none ↔
      ((0 : Byte) ∈ b ∨ (∃ i, b[i]? = some hash ∧ i ≠ b.length - 1) ∨
        ∃ i, b[i]? = some plus ∧
          ((i ≠ 0 ∧ ∃ p, b[i - 1]? = some p ∧ p ≠ slash) ∨
            (∃ n, b[i + 1]? = some n ∧ n ≠ slash))) := by
  rw [scan_none_iff, Invalid_iff]
  simp only [byteBefore_none]
  constructor
  · rintro (h | h | ⟨i, h1, h2⟩)
    · exact Or.inl h
    · exact Or.inr (Or.inl h)
    · refine Or.inr (Or.inr ⟨i, h1, ?_⟩)
      rcases h2 with ⟨p, ⟨hi, hp⟩, hne⟩ | h2
      · exact Or.inl ⟨hi, p, hp, hne⟩
      · exact Or.inr h2
  · rintro (h | h | ⟨i, h1, h2⟩)
    · exact Or.inl h
    · exact Or.inr (Or.inl h)
    · refine Or.inr (Or.inr ⟨i, h1, ?_⟩)
      rcases h2 with ⟨hi, p, hp, hne⟩ | h2
      · exact Or.inl ⟨p, ⟨hi, hp⟩, hne⟩
      · exact Or.inr h2

/-- C1: the round trip of the filter tokenizer fails on the accepted input
`"a#"`: `ParseTopic` returns the single token `"#"` with a nil error, and
joining the `Value` fields gives `"#"`, not `"a#"`. -/
theorem C1_round_trip_loses_text_before_hash :
    ParseTopic [97, hash] = .ret ([⟨[hash], .MultiLevelMatch⟩], true, none) ∧
    stringifyTopicToken [⟨[hash], .MultiLevelMatch⟩] = [hash] ∧
    stringifyTopicToken [⟨[hash], .MultiLevelMatch⟩] ≠ [97, hash] := by
  decide

/-- C2: `ParseTopic(b)` returns `nil, false, ErrInvalidTopicName` if and only
if `b` is empty, or contains a NUL byte, or contains `'#'` at an index other
than the last, or contains a `'+'` whose preceding byte exists and is not `'/'`
or whose following byte exists and is not `'/'`; in every other case it
returns a nil error. -/
theorem C2_ParseTopic_error_iff (b : List Byte) :
    (ParseTopic b = .ret ([], false, some Error.ErrInvalidTopicName) ↔
      (b = [] ∨ (0 : Byte) ∈ b ∨ (∃ i, b[i]? = some hash ∧ i ≠ b.length - 1) ∨
        ∃ i, b[i]? = some plus ∧
          ((i ≠ 0 ∧ ∃ p, b[i - 1]? = some p ∧ p ≠ slash) ∨
            (∃ n, b[i + 1]? = some n ∧ n ≠ slash)))) ∧
    (ParseTopic b ≠ .ret ([], false, some Error.ErrInvalidTopicName) →
      ∃ ts hw, ParseTopic b = .ret (ts, hw, none)) := by
  by_cases hb : b = []
  · subst hb
    exact ⟨⟨fun _ => Or.inl rfl, fun _ => rfl⟩, fun h => absurd rfl h⟩
  · rw [ParseTopic_eq_scan b hb, ← scan_none_iff_index]
    cases hs : scan none [] b with
    | none => exact ⟨⟨fun _ => Or.inr rfl, fun _ => rfl⟩, fun h => absurd rfl h⟩
    | some r =>
      refine ⟨⟨fun h => ?_, fun h => ?_⟩, fun _ => ⟨r.1, r.2, ?_⟩⟩
      · simp [pack] at h
      · rcases h with h | h
        · exact absurd h hb
        · simp at h
      · simp [pack]

theorem scanName_none_iff (cur rest : List Byte) :
    scanName cur rest = none ↔ hash ∈ rest ∨ plus ∈ rest ∨ (0 : Byte) ∈ rest := by
  induction rest generalizing cur with
  | nil => simp [scanName_nil]
  | cons c rest ih =>
    by_cases hbad : c = hash ∨ c = plus ∨ c = 0
    · rw [scanName_bad _ _ _ hbad]
      simp only [List.mem_cons, true_iff]
      rcases hbad with h | h | h
      · exact Or.inl (Or.inl h.symm)
      · exact Or.inr (Or.inl (Or.inl h.symm))
      · exact Or.inr (Or.inr (Or.inl h.symm))
    · have h1 : ¬ hash = c := fun h => hbad (Or.inl h.symm)
      have h2 : ¬ plus = c := fun h => hbad (Or.inr (Or.inl h.symm))
      have h3 : ¬ (0 : Byte) = c := fun h => hbad (Or.inr (Or.inr h.symm))
      by_cases hs : c = slash
      · subst hs
        rw [scanName_slash]
        simp [ih]
      · rw [scanName_other _ _ _ hbad hs, ih]
        simp [h1, h2, h3]

theorem scan_eq_scanName (prev : Option Byte) (cur rest : List Byte)
    (hp : plus ∉ rest) (hh : hash ∉ rest) :
    scan prev cur rest =
      (scanName cur rest).map fun ls =>
        (ls.map fun v => (⟨v, .ExactMatch⟩ : TopicMatch), false) := by
  induction rest generalizing prev cur with
  | nil => simp [scan_nil, scanName_nil]
  | cons c rest ih =>
    have hcp : c ≠ plus := fun h => hp (by simp [h])
    have hch : c ≠ hash := fun h => hh (by simp [h])
    have hp' : plus ∉ rest := fun h => hp (List.mem_cons_of_mem _ h)
    have hh' : hash ∉ rest := fun h => hh (List.mem_cons_of_mem _ h)
    by_cases h0 : c = 0
    · subst h0
      rw [scan_zero, scanName_bad _ _ _ (Or.inr (Or.inr rfl))]
      rfl
    · have hbad : ¬ (c = hash ∨ c = plus ∨ c = 0) := by
        rintro (h | h | h)
        · exact hch h
        · exact hcp h
        · exact h0 h
      by_cases hs : c = slash
      · subst hs
        rw [scan_slash, scanName_slash, ih _ _ hp' hh']
        cases scanName [] rest <;> simp
      · rw [scan_other _ _ _ _ h0 hch hcp hs, scanName_other _ _ _ hbad hs, ih _ _ hp' hh']

/-- C3: `ParseTopicName(b)` returns `nil, ErrInvalidTopicName` if and only if
`b` is empty or contains at least one of the bytes `'#'`, `'+'` or NUL;
otherwise it returns a nil error. -/
theorem C3_ParseTopicName_error_iff (b : List Byte) :
    (ParseTopicName b = .ret ([], some Error.ErrInvalidTopicName) ↔
      (b = [] ∨ hash ∈ b ∨ plus ∈ b ∨ (0 : Byte) ∈ b)) ∧
    (ParseTopicName b ≠ .ret ([], some Error.ErrInvalidTopicName) →
      ∃ ls, ParseTopicName b = .ret (ls, none)) := by
  by_cases hb : b = []
  · subst hb
    exact ⟨⟨fun _ => Or.inl rfl, fun _ => rfl⟩, fun h => absurd rfl h⟩
  · rw [ParseTopicName_eq_scanName b hb, ← scanName_none_iff []]
    cases hs : scanName [] b with
    | none => exact ⟨⟨fun _ => Or.inr rfl, fun _ => rfl⟩, fun h => absurd rfl h⟩
    | some r =>
      refine ⟨⟨fun h => ?_, fun h => ?_⟩, fun _ => ⟨r, ?_⟩⟩
      · simp [packName] at h
      · rcases h with h | h
        · exact absurd h hb
        · simp at h
      · simp [packName]

/-- C4: on an input `b` with neither `'+'` nor `'#'`, `ParseTopic` and
`ParseTopicName` both return, with the same error value (so one fails exactly
when the other does); when the error is nil, the `Value` fields of the tokens
of `ParseTopic` are the levels of `ParseTopicName`, every token has
`MatchType` `ExactMatch`, and `hasWildcard` is false. -/
theorem C4_tokenizers_agree_without_wildcards (b : List Byte)
    (hp : plus ∉ b) (hh : hash ∉ b) :
    ∃ ts hw e ls,
      ParseTopic b = .ret (ts, hw, e) ∧ ParseTopicName b = .ret (ls, e) ∧
      (e = none →
        ts.map TopicMatch.Value = ls ∧
        (∀ t ∈ ts, t.MatchType = MatchType.ExactMatch) ∧ hw = false) := by
  by_cases hb : b = []
  · subst hb
    exact ⟨[], false, some Error.ErrInvalidTopicName, [], rfl, rfl, fun h => by simp at h⟩
  · rw [ParseTopic_eq_scan b hb, ParseTopicName_eq_scanName b hb,
      scan_eq_scanName none [] b hp hh]
    cases scanName [] b with
    | none =>
      exact ⟨[], false, some Error.ErrInvalidTopicName, [], rfl, rfl, fun h => by simp at h⟩
    | some ls =>
      refine ⟨ls.map fun v => ⟨v, .ExactMatch⟩, false, none, ls, ?_, ?_, fun _ => ⟨?_, ?_, rfl⟩⟩
      · simp [pack]
      · simp [packName]
      · simp [Function.comp_def]
      · intro t ht
        obtain ⟨v, _, rfl⟩ := List.mem_map.mp ht
        rfl

/-- C4 at the input `"a/b"`. -/
theorem C4_tokenizers_agree_without_wildcards_witness :
    plus ∉ [97, slash, 98] ∧ hash ∉ [97, slash, 98] ∧
    ∃ ts hw e ls,
      ParseTopic [97, slash, 98] = .ret (ts, hw, e) ∧
      ParseTopicName [97, slash, 98] = .ret (ls, e) ∧
      (e = none →
        ts.map TopicMatch.Value = ls ∧
        (∀ t ∈ ts, t.MatchType = MatchType.ExactMatch) ∧ hw = false) :=
  ⟨by decide, by decide,
    C4_tokenizers_agree_without_wildcards [97, slash, 98] (by decide) (by decide)⟩

end topics

namespace protocol

theorem hi_byte (n : Nat) (h : n < 65536) : n / 2 ^ 8 % 256 = n / 256 := by
  have h8 : (2 : Nat) ^ 8 = 256 := by decide
  rw [h8]
  omega

theorem WriteByte_ret (w : writableBuf) (mem : Mem) (c : Byte) (k : Nat)
    (hk : w.lastWriteIndex + 1 = (k : Int)) (hlt : k < w.buf.len) :
    w.WriteByte mem c
      = .ret (mem.set (w.buf.ptr + k) c, { buf := w.buf, lastWriteIndex := (k : Int) }, none) := by
  simp [writableBuf.WriteByte, store, hk, hlt, Exec.bind]

theorem sliceTo_ret (s : GoSlice) (n : Nat) (h : n ≤ s.len) :
    sliceTo s (n : Int) = .ret { ptr := s.ptr, len := n } := by
  have hc : (0 : Int) ≤ (n : Int) ∧ (n : Int) ≤ (s.len : Int) :=
    ⟨Int.ofNat_nonneg n, by exact_mod_cast h⟩
  simp only [sliceTo]
  rw [if_pos hc]
  simp

theorem Write_ret (w : writableBuf) (mem : Mem) (p : GoSlice) (k : Nat)
    (hk : w.lastWriteIndex + 1 = (k : Int)) (hle : k ≤ w.buf.len) :
    w.Write mem p
      = .ret (copy mem { ptr := w.buf.ptr + k, len := w.buf.len - k } p,
          { buf := w.buf, lastWriteIndex := w.lastWriteIndex + (p.len : Int) },
          (p.len : Int), none) := by
  simp [writableBuf.Write, sliceFrom, hk, hle, Exec.bind]

theorem writeMQTTStr_ret (w : writableBuf) (mem : Mem) (str : GoSlice) (k : Nat)
    (hk : w.lastWriteIndex + 1 = (k : Int))
    (hroom : k + 2 + str.len % 65536 ≤ w.buf.len) :
    w.writeMQTTStr mem str =
      .ret (written mem w.buf.ptr k str,
        { buf := w.buf,
          lastWriteIndex := (k : Int) + 1 + ((str.len % 65536 : Nat) : Int) }) := by
  have hn : str.len % 65536 ≤ str.len := Nat.mod_le _ _
  have hmin : min (w.buf.len - (k + 2)) (str.len % 65536) = str.len % 65536 := by omega
  rw [writableBuf.writeMQTTStr]
  rw [WriteByte_ret w mem _ k hk (by omega), bind_ret,
    WriteByte_ret _ _ _ (k + 1) (by simp) (by simp; omega), bind_ret,
    sliceTo_ret str _ hn, bind_ret,
    Write_ret _ _ _ (k + 2) (by simp; ring) (by simp; omega), bind_ret]
  simp only [copy, written, hmin]
  congr 1

theorem set_set_getElem? (mem : Mem) (p1 p2 x : Nat) (c1 c2 : Byte)
    (h1 : p1 < mem.length) (h2 : p2 < mem.length) :
    ((mem.set p1 c1).set p2 c2)[x]? =
      if x = p2 then some c2 else if x = p1 then some c1 else mem[x]? := by
  by_cases hx2 : x = p2
  · subst hx2
    rw [if_pos rfl, List.getElem?_set_self (by rw [List.length_set]; exact h2)]
  · rw [if_neg hx2, List.getElem?_set_ne (fun h => hx2 h.symm)]
    by_cases hx1 : x = p1
    · subst hx1
      rw [if_pos rfl, List.getElem?_set_self h1]
    · rw [if_neg hx1, List.getElem?_set_ne (fun h => hx1 h.symm)]

theorem written_length (mem : Mem) (bp k : Nat) (str : GoSlice)
    (hroom : bp + k + 2 + str.len % 65536 ≤ mem.length)
    (hstr : str.ptr + str.len ≤ mem.length) :
    (written mem bp k str).length = mem.length := by
  have hn : str.len % 65536 ≤ str.len := Nat.mod_le _ _
  simp only [written, List.length_append, List.length_take, List.length_drop,
    List.length_set]
  omega

theorem written_getElem? (mem : Mem) (bp k : Nat) (str : GoSlice)
    (hroom : bp + k + 2 + str.len % 65536 ≤ mem.length)
    (hstr : str.ptr + str.len ≤ mem.length) (a : Nat) :
    (written mem bp k str)[a]? =
      if a < bp + k then mem[a]?
      else if a = bp + k then some ((str.len % 65536) >>> 8 % 256)
      else if a = bp + k + 1 then some (str.len % 65536 % 256)
      else if a < bp + k + 2 + str.len % 65536 then
        ((mem.set (bp + k) ((str.len % 65536) >>> 8 % 256)).set (bp + k + 1)
          (str.len % 65536 % 256))[str.ptr + (a - (bp + k + 2))]?
      else mem[a]? := by
  have hn : str.len % 65536 ≤ str.len := Nat.mod_le _ _
  generalize hN : str.len % 65536 = n at *
  simp only [written, hN]
  generalize hM : (mem.set (bp + k) (n >>> 8 % 256)).set (bp + k + 1) (n % 256) = mem2
  have hget : ∀ x, mem2[x]? = if x = bp + k + 1 then some (n % 256)
      else if x = bp + k then some (n >>> 8 % 256) else mem[x]? := by
    intro x
    rw [← hM]
    exact set_set_getElem? mem _ _ x _ _ (by omega) (by omega)
  have hlen2 : mem2.length = mem.length := by
    rw [← hM, List.length_set, List.length_set]
  have hl1 : (mem2.take (bp + k + 2)).length = bp + k + 2 := by
    rw [List.length_take, hlen2]; omega
  have hl2 : ((mem2.drop str.ptr).take n).length = n := by
    rw [List.length_take, List.length_drop, hlen2]; omega
  by_cases h1 : a < bp + k + 2
  · rw [List.append_assoc, List.getElem?_append_left (by omega),
      List.getElem?_take_of_lt h1, hget]
    by_cases h2 : a < bp + k
    · have h3 : a ≠ bp + k + 1 := by omega
      have h4 : a ≠ bp + k := by omega
      rw [if_pos h2, if_neg h3, if_neg h4]
    · rw [if_neg h2]
      by_cases h3 : a = bp + k
      · subst h3
        simp
      · have h4 : a = bp + k + 1 := by omega
        subst h4
        simp
  · rw [if_neg (by omega), if_neg (by omega), if_neg (by omega)]
    by_cases h5 : a < bp + k + 2 + n
    · rw [if_pos h5, List.append_assoc, List.getElem?_append_right (by omega), hl1,
        List.getElem?_append_left (by omega), List.getElem?_take_of_lt (by omega),
        List.getElem?_drop]
    · rw [if_neg h5, List.getElem?_append_right (by simp only [List.length_append]; omega),
        List.length_append, hl1, hl2, List.getElem?_drop, hget, if_neg (by omega),
        if_neg (by omega)]
      congr 1
      omega

/-- What `writeMQTTStr` does for a string of any length, with
`n = len(str) % 65536`, when the buffer has room for `2 + n` bytes and none of
the first `n` bytes of `str` is stored in the cell of `buf[k]` or `buf[k+1]`. -/
theorem writeMQTTStr_spec (w : writableBuf) (mem : Mem) (str : GoSlice) (k : Nat)
    (hbuf : w.buf.ptr + w.buf.len ≤ mem.length) (hstr : str.ptr + str.len ≤ mem.length)
    (hk : w.bytesWritten = (k : Int))
    (hroom : k + 2 + str.len % 65536 ≤ w.buf.len)
    (hsep : ∀ j, j < str.len % 65536 →
      str.ptr + j ≠ w.buf.ptr + k ∧ str.ptr + j ≠ w.buf.ptr + k + 1) :
    ∃ mem' w', w.writeMQTTStr mem str = .ret (mem', w') ∧
      w'.buf = w.buf ∧ mem'.length = mem.length ∧
      w'.buf.get mem' k = some (str.len % 65536 / 256) ∧
      w'.buf.get mem' (k + 1) = some (str.len % 65536 % 256) ∧
      (∀ j, j < str.len % 65536 → w'.buf.get mem' (k + 2 + j) = str.get mem j) ∧
      (∀ a, a < w.buf.ptr + k ∨ w.buf.ptr + k + 2 + str.len % 65536 ≤ a →
        mem'[a]? = mem[a]?) ∧
      w'.bytesWritten = (k : Int) + 2 + ((str.len % 65536 : Nat) : Int) := by
  have hroom' : w.buf.ptr + k + 2 + str.len % 65536 ≤ mem.length := by omega
  refine ⟨_, _, writeMQTTStr_ret w mem str k hk hroom, rfl,
    written_length _ _ _ _ hroom' hstr, ?_, ?_, ?_, ?_, ?_⟩
  · simp only [GoSlice.get]
    rw [written_getElem? _ _ _ _ hroom' hstr, if_neg (lt_irrefl _), if_pos rfl,
      Nat.shiftRight_eq_div_pow, hi_byte _ (Nat.mod_lt _ (by decide))]
  · simp only [GoSlice.get]
    rw [written_getElem? _ _ _ _ hroom' hstr, if_neg (by omega), if_neg (by omega),
      if_pos (by omega)]
  · intro j hj
    obtain ⟨h1, h2⟩ := hsep j hj
    simp only [GoSlice.get]
    rw [written_getElem? _ _ _ _ hroom' hstr, if_neg (by omega), if_neg (by omega),
      if_neg (by omega), if_pos (by omega),
      set_set_getElem? _ _ _ _ _ _ (by omega) (by omega)]
    have hidx : str.ptr + (w.buf.ptr + (k + 2 + j) - (w.buf.ptr + k + 2)) = str.ptr + j := by
      omega
    rw [hidx, if_neg h2, if_neg h1]
  · intro a ha
    rw [written_getElem? _ _ _ _ hroom' hstr]
    rcases ha with ha | ha
    · rw [if_pos ha]
    · rw [if_neg (by omega), if_neg (by omega), if_neg (by omega), if_neg (by omega)]
  · simp only [writableBuf.bytesWritten]
    ring

theorem longString_length : longString.length = 65536 :=
  List.length_replicate _ _

theorem written_longString :
    written (9 :: 9 :: longString) 0 0 { ptr := 2, len := 65536 } = 0 :: 0 :: longString := by
  have h : (65536 : Nat) % 65536 = 0 := by decide
  simp only [written, h]
  rfl

/-- C5, as stated, fails: for a fresh two-byte buffer (cells 0 and 1) and a
string of 65536 bytes stored behind it, `writeMQTTStr` returns normally,
having written the length prefix `0, 0` and no byte of the string. -/
theorem C5_writeMQTTStr_accepts_65536_bytes :
    65535 < ({ ptr := 2, len := 65536 } : GoSlice).len ∧
    ({ ptr := 2, len := 65536 } : GoSlice).bytes (9 :: 9 :: longString) = longString ∧
    (newWritableBuf { ptr := 0, len := 2 }).writeMQTTStr (9 :: 9 :: longString)
        { ptr := 2, len := 65536 }
      = .ret (0 :: 0 :: longString,
          { buf := { ptr := 0, len := 2 }, lastWriteIndex := 1 }) := by
  refine ⟨by decide, ?_, ?_⟩
  · show List.take 65536 longString = longString
    rw [← longString_length, List.take_length]
  · rw [writeMQTTStr_ret (newWritableBuf { ptr := 0, len := 2 }) _ _ 0 rfl (by decide),
      show (newWritableBuf { ptr := 0, len := 2 }).buf.ptr = 0 from rfl, written_longString]
    rfl

/-- C5, amended: `writeMQTTStr` has no rejection path.  For `str` longer than
65535 bytes, with `n = len(str) % 65536`, `k` bytes written so far, room in
the buffer for `2 + n` more and none of the first `n` bytes of `str` stored in
the cell of `buf[k]` or `buf[k+1]`, it returns normally: `buf[k]`, `buf[k+1]`
hold the big-endian encoding of `n`, `buf[k+2 .. k+2+n)` holds the first `n`
bytes `str` had (fewer than `len(str)`), every other byte of the memory (the
rest of `buf` included) and `len(buf)` are unchanged, and `bytesWritten()` is
`k + 2 + n`. -/
theorem C5_writeMQTTStr_truncates (w : writableBuf) (mem : Mem) (str : GoSlice) (k : Nat)
    (hbuf : w.buf.ptr + w.buf.len ≤ mem.length) (hstr : str.ptr + str.len ≤ mem.length)
    (hk : w.bytesWritten = (k : Int)) (hlen : 65535 < str.len)
    (hroom : k + 2 + str.len % 65536 ≤ w.buf.len)
    (hsep : ∀ j, j < str.len % 65536 →
      str.ptr + j ≠ w.buf.ptr + k ∧ str.ptr + j ≠ w.buf.ptr + k + 1) :
    str.len % 65536 < str.len ∧
    ∃ mem' w', w.writeMQTTStr mem str = .ret (mem', w') ∧
      w'.buf = w.buf ∧ mem'.length = mem.length ∧
      w'.buf.get mem' k = some (str.len % 65536 / 256) ∧
      w'.buf.get mem' (k + 1) = some (str.len % 65536 % 256) ∧
      (∀ j, j < str.len % 65536 → w'.buf.get mem' (k + 2 + j) = str.get mem j) ∧
      (∀ a, a < w.buf.ptr + k ∨ w.buf.ptr + k + 2 + str.len % 65536 ≤ a →
        mem'[a]? = mem[a]?) ∧
      w'.bytesWritten = (k : Int) + 2 + ((str.len % 65536 : Nat) : Int) :=
  ⟨by omega, writeMQTTStr_spec w mem str k hbuf hstr hk hroom hsep⟩

/-- C5 (amended) at a fresh two-byte buffer and a string of 65536 bytes
stored behind it. -/
theorem C5_writeMQTTStr_truncates_witness :
    ({ ptr := 2, len := 65536 } : GoSlice).len % 65536
      < ({ ptr := 2, len := 65536 } : GoSlice).len ∧
    ∃ mem' w', (newWritableBuf { ptr := 0, len := 2 }).writeMQTTStr (9 :: 9 :: longString)
        { ptr := 2, len := 65536 } = .ret (mem', w') ∧
      w'.buf = (newWritableBuf { ptr := 0, len := 2 }).buf ∧
      mem'.length = (9 :: 9 :: longString).length ∧
      w'.buf.get mem' 0 = some (({ ptr := 2, len := 65536 } : GoSlice).len % 65536 / 256) ∧
      w'.buf.get mem' (0 + 1)
        = some (({ ptr := 2, len := 65536 } : GoSlice).len % 65536 % 256) ∧
      (∀ j, j < ({ ptr := 2, len := 65536 } : GoSlice).len % 65536 →
        w'.buf.get mem' (0 + 2 + j)
          = ({ ptr := 2, len := 65536 } : GoSlice).get (9 :: 9 :: longString) j) ∧
      (∀ a, a < (newWritableBuf { ptr := 0, len := 2 }).buf.ptr + 0 ∨
          (newWritableBuf { ptr := 0, len := 2 }).buf.ptr + 0 + 2
            + ({ ptr := 2, len := 65536 } : GoSlice).len % 65536 ≤ a →
        mem'[a]? = (9 :: 9 :: longString)[a]?) ∧
      w'.bytesWritten = ((0 : Nat) : Int) + 2
        + ((({ ptr := 2, len := 65536 } : GoSlice).len % 65536 : Nat) : Int) :=
  C5_writeMQTTStr_truncates (newWritableBuf { ptr := 0, len := 2 }) (9 :: 9 :: longString)
    { ptr := 2, len := 65536 } 0
    (by
      show 0 + 2 ≤ (9 :: 9 :: longString).length
      rw [List.length_cons, List.length_cons, longString_length]
      decide)
    (by
      show 2 + 65536 ≤ (9 :: 9 :: longString).length
      rw [List.length_cons, List.length_cons, longString_length])
    rfl (by decide) (by decide)
    (by
      intro j hj
      have hj' : j < 65536 % 65536 := hj
      omega)

/-- C6, as stated, fails when `str` shares memory with the buffer: for the
six-byte buffer `[1, 2, 3, 4, 5, 6]` and `str = buf[0:3]` the hypotheses of
the claim hold, and `writeMQTTStr(str)` leaves `[0, 3, 0, 3, 3, 6]`: the two
length bytes overwrite `str` before it is copied, so `buf[2..5)` is `0, 3, 3`,
not the string `1, 2, 3`. -/
theorem C6_writeMQTTStr_overlapping_str :
    (newWritableBuf { ptr := 0, len := 6 }).bytesWritten = 0 ∧
    ({ ptr := 0, len := 3 } : GoSlice).len ≤ 65535 ∧
    0 + 2 + ({ ptr := 0, len := 3 } : GoSlice).len ≤ ({ ptr := 0, len := 6 } : GoSlice).len ∧
    ({ ptr := 0, len := 3 } : GoSlice).bytes [1, 2, 3, 4, 5, 6] = [1, 2, 3] ∧
    (newWritableBuf { ptr := 0, len := 6 }).writeMQTTStr [1, 2, 3, 4, 5, 6]
        { ptr := 0, len := 3 }
      = .ret ([0, 3, 0, 3, 3, 6], { buf := { ptr := 0, len := 6 }, lastWriteIndex := 4 }) ∧
    ({ ptr := 0, len := 6 } : GoSlice).get [0, 3, 0, 3, 3, 6] (0 + 2 + 0)
      ≠ ({ ptr := 0, len := 3 } : GoSlice).get [1, 2, 3, 4, 5, 6] 0 := by
  decide

/-- C6, amended: for a `writableBuf` with `k = bytesWritten()` and a string
`str` with `len(str) <= 65535` and `k + 2 + len(str) <= len(buf)`, no byte of
which is stored in the cell of `buf[k]` or `buf[k+1]`, `writeMQTTStr(str)`
returns normally; afterwards `buf[k] = len(str) / 256`,
`buf[k+1] = len(str) % 256`, `buf[k+2 .. k+2+len(str))` holds the bytes `str`
had before the call, every other byte of the memory (the rest of `buf`
included) and `len(buf)` are unchanged, and `bytesWritten()` is
`k + 2 + len(str)`. -/
theorem C6_writeMQTTStr_encodes (w : writableBuf) (mem : Mem) (str : GoSlice) (k : Nat)
    (hbuf : w.buf.ptr + w.buf.len ≤ mem.length) (hstr : str.ptr + str.len ≤ mem.length)
    (hk : w.bytesWritten = (k : Int)) (hlen : str.len ≤ 65535)
    (hroom : k + 2 + str.len ≤ w.buf.len)
    (hsep : ∀ j, j < str.len →
      str.ptr + j ≠ w.buf.ptr + k ∧ str.ptr + j ≠ w.buf.ptr + k + 1) :
    ∃ mem' w', w.writeMQTTStr mem str = .ret (mem', w') ∧
      w'.buf = w.buf ∧ mem'.length = mem.length ∧
      w'.buf.get mem' k = some (str.len / 256) ∧
      w'.buf.get mem' (k + 1) = some (str.len % 256) ∧
      (∀ j, j < str.len → w'.buf.get mem' (k + 2 + j) = str.get mem j) ∧
      (∀ a, a < w.buf.ptr + k ∨ w.buf.ptr + k + 2 + str.len ≤ a → mem'[a]? = mem[a]?) ∧
      w'.bytesWritten = (k : Int) + 2 + (str.len : Int) := by
  have hn : str.len % 65536 = str.len := Nat.mod_eq_of_lt (by omega)
  have h := writeMQTTStr_spec w mem str k hbuf hstr hk (by rw [hn]; exact hroom)
    (by rw [hn]; exact hsep)
  rw [hn] at h
  exact h

/-- C6 (amended) at a fresh six-byte buffer `[9, 9, 9, 1, 2, 3]` and
`str = buf[3:6]`, which overlaps the cells the string is copied to but not the
two length bytes: the buffer becomes `[0, 3, 1, 2, 3, 3]`. -/
theorem C6_writeMQTTStr_encodes_witness :
    (newWritableBuf { ptr := 0, len := 6 }).writeMQTTStr [9, 9, 9, 1, 2, 3]
        { ptr := 3, len := 3 }
      = .ret ([0, 3, 1, 2, 3, 3], { buf := { ptr := 0, len := 6 }, lastWriteIndex := 4 }) ∧
    ∃ mem' w', (newWritableBuf { ptr := 0, len := 6 }).writeMQTTStr [9, 9, 9, 1, 2, 3]
        { ptr := 3, len := 3 } = .ret (mem', w') ∧
      w'.buf = (newWritableBuf { ptr := 0, len := 6 }).buf ∧
      mem'.length = ([9, 9, 9, 1, 2, 3] : Mem).length ∧
      w'.buf.get mem' 0 = some (({ ptr := 3, len := 3 } : GoSlice).len / 256) ∧
      w'.buf.get mem' (0 + 1) = some (({ ptr := 3, len := 3 } : GoSlice).len % 256) ∧
      (∀ j, j < ({ ptr := 3, len := 3 } : GoSlice).len →
        w'.buf.get mem' (0 + 2 + j)
          = ({ ptr := 3, len := 3 } : GoSlice).get [9, 9, 9, 1, 2, 3] j) ∧
      (∀ a, a < (newWritableBuf { ptr := 0, len := 6 }).buf.ptr + 0 ∨
          (newWritableBuf { ptr := 0, len := 6 }).buf.ptr + 0 + 2
            + ({ ptr := 3, len := 3 } : GoSlice).len ≤ a →
        mem'[a]? = ([9, 9, 9, 1, 2, 3] : Mem)[a]?) ∧
      w'.bytesWritten = ((0 : Nat) : Int) + 2
        + (({ ptr := 3, len := 3 } : GoSlice).len : Int) :=
  ⟨by decide,
    C6_writeMQTTStr_encodes (newWritableBuf { ptr := 0, len := 6 }) [9, 9, 9, 1, 2, 3]
      { ptr := 3, len := 3 } 0 (by decide) (by decide) rfl (by decide) (by decide)
      (by
        intro j _
        constructor
        · show 3 + j ≠ 0 + 0
          omega
        · show 3 + j ≠ 0 + 0 + 1
          omega)⟩

end protocol

end MqttBroker

namespace MqttBroker

namespace topics

theorem ParseTopic_ok_iff (b : List Byte) (ts : List TopicMatch) (hw : Bool) :
    ParseTopic b = .ret (ts, hw, none) ↔ b ≠ [] ∧ scan none [] b = some (ts, hw) := by
  by_cases hb : b = []
  · subst hb
    simp [ParseTopic_nil, invalidTopic]
  · rw [ParseTopic_eq_scan b hb]
    cases hs : scan none [] b with
    | none => simp [pack, invalidTopic]
    | some r =>
      obtain ⟨r1, r2⟩ := r
      simp [pack, hb]

/-- The tokens of a successful scan: all but the last are not multi-level, and
a multi-level last token is `"#"`. -/
theorem scan_multi : ∀ (prev : Option Byte) (cur rest : List Byte),
    ∀ ts w, scan prev cur rest = some (ts, w) →
      ∃ init l, ts = init ++ [l] ∧
        (∀ t ∈ init, t.MatchType ≠ MatchType.MultiLevelMatch) ∧
        (l.MatchType = MatchType.MultiLevelMatch → l.Value = [hash]) := by
  refine scan_ind _ ?_ ?_ ?_ ?_ ?_ ?_ ?_ ?_ ?_
  · intro prev cur ts w h
    rw [scan_nil] at h
    obtain ⟨rfl, rfl⟩ := Prod.mk.inj (Option.some.inj h)
    exact ⟨[], _, rfl, by simp, by simp⟩
  · intro prev cur rest ts w h
    rw [scan_zero] at h
    exact absurd h (by simp)
  · intro prev cur ts w h
    rw [scan_hash_nil] at h
    obtain ⟨rfl, rfl⟩ := Prod.mk.inj (Option.some.inj h)
    exact ⟨[], _, rfl, by simp, by simp⟩
  · intro prev cur rest hr ts w h
    rw [scan_hash_cons _ _ _ hr] at h
    exact absurd h (by simp)
  · intro prev cur ts w h
    rw [scan_plus_nil] at h
    cases hpb : prevBad prev with
    | true => simp [hpb] at h
    | false =>
      simp only [hpb, Bool.false_eq_true, if_false] at h
      obtain ⟨rfl, rfl⟩ := Prod.mk.inj (Option.some.inj h)
      exact ⟨[], _, rfl, by simp, by simp⟩
  · intro prev cur n rest hn ts w h
    rw [scan_plus_cons, if_pos hn] at h
    exact absurd h (by simp)
  · intro prev cur rest ih ts w h
    rw [scan_plus_cons, if_neg (by simp)] at h
    cases hpb : prevBad prev with
    | true => simp [hpb] at h
    | false =>
      simp only [hpb, Bool.false_eq_true, if_false] at h
      cases hs : scan (some slash) [] rest with
      | none => simp [hs] at h
      | some r =>
        obtain ⟨ts', w'⟩ := r
        rw [hs] at h
        obtain ⟨rfl, rfl⟩ := Prod.mk.inj (Option.some.inj h)
        obtain ⟨init, l, rfl, h1, h2⟩ := ih ts' w' hs
        refine ⟨plusToken :: init, l, rfl, ?_, h2⟩
        intro t ht
        rcases List.mem_cons.mp ht with rfl | ht
        · simp
        · exact h1 t ht
  · intro prev cur rest ih ts w h
    rw [scan_slash] at h
    cases hs : scan (some slash) [] rest with
    | none => simp [hs] at h
    | some r =>
      obtain ⟨ts', w'⟩ := r
      rw [hs] at h
      obtain ⟨rfl, rfl⟩ := Prod.mk.inj (Option.some.inj h)
      obtain ⟨init, l, rfl, h1, h2⟩ := ih ts' w' hs
      refine ⟨⟨cur, .ExactMatch⟩ :: init, l, rfl, ?_, h2⟩
      intro t ht
      rcases List.mem_cons.mp ht with rfl | ht
      · simp
      · exact h1 t ht
  · intro prev cur c rest h0 hh hp hs ih ts w h
    rw [scan_other _ _ _ _ h0 hh hp hs] at h
    exact ih ts w h

/-- C7: when `ParseTopic` succeeds, at most one returned token has `MatchType`
`MultiLevelMatch`, and a token with that `MatchType` is the last token of the
returned sequence and has `Value` `"#"`. -/
theorem C7_multi_level_token_is_last (b : List Byte) (ts : List TopicMatch) (hw : Bool)
    (h : ParseTopic b = .ret (ts, hw, none)) :
    ts.countP (fun t => decide (t.MatchType = MatchType.MultiLevelMatch)) ≤ 1 ∧
    ∀ i t, ts[i]? = some t → t.MatchType = MatchType.MultiLevelMatch →
      i + 1 = ts.length ∧ t.Value = [hash] := by
  obtain ⟨_, hs⟩ := (ParseTopic_ok_iff b ts hw).mp h
  obtain ⟨init, l, rfl, h1, h2⟩ := scan_multi _ _ _ ts hw hs
  constructor
  · rw [List.countP_append]
    have h0 : init.countP (fun t => decide (t.MatchType = MatchType.MultiLevelMatch)) = 0 := by
      rw [List.countP_eq_zero]
      intro t ht
      simpa using h1 t ht
    have h1' : List.countP (fun t => decide (t.MatchType = MatchType.MultiLevelMatch)) [l]
        ≤ [l].length := List.countP_le_length _
    rw [h0]
    simpa using h1'
  · intro i t hi ht
    by_cases hlt : i < init.length
    · rw [List.getElem?_append_left hlt] at hi
      have hmem : t ∈ init := List.getElem?_mem hi
      exact absurd ht (h1 t hmem)
    · rw [List.getElem?_append_right (not_lt.mp hlt)] at hi
      have hi0 : i - init.length = 0 := by
        by_contra hne
        obtain ⟨j, hj⟩ : ∃ j, i - init.length = j + 1 := ⟨i - init.length - 1, by omega⟩
        rw [hj] at hi
        simp at hi
      rw [hi0] at hi
      simp only [List.getElem?_cons_zero, Option.some.injEq] at hi
      subst hi
      refine ⟨?_, h2 ht⟩
      simp only [List.length_append, List.length_singleton]
      omega

/-- C7 at the filter `"a/#"`. -/
theorem C7_multi_level_token_is_last_witness :
    ParseTopic [97, slash, hash]
      = .ret ([⟨[97], .ExactMatch⟩, ⟨[hash], .MultiLevelMatch⟩], true, none) ∧
    [(⟨[97], .ExactMatch⟩ : TopicMatch), ⟨[hash], .MultiLevelMatch⟩].countP
      (fun t => decide (t.MatchType = MatchType.MultiLevelMatch)) ≤ 1 ∧
    ∀ i t, [(⟨[97], .ExactMatch⟩ : TopicMatch), ⟨[hash], .MultiLevelMatch⟩][i]? = some t →
      t.MatchType = MatchType.MultiLevelMatch →
      i + 1 = [(⟨[97], .ExactMatch⟩ : TopicMatch), ⟨[hash], .MultiLevelMatch⟩].length ∧
        t.Value = [hash] :=
  ⟨by decide, C7_multi_level_token_is_last [97, slash, hash] _ true (by decide)⟩

theorem scan_nil_some (prev : Option Byte) (cur : List Byte) (ts : List TopicMatch)
    (w : Bool) :
    scan prev cur [] = some (ts, w) ↔ ts = [⟨cur, .ExactMatch⟩] ∧ w = false := by
  rw [scan_nil]
  simp [eq_comm]

theorem scan_hash_nil_some (prev : Option Byte) (cur : List Byte) (ts : List TopicMatch)
    (w : Bool) :
    scan prev cur [hash] = some (ts, w) ↔ ts = [hashToken] ∧ w = true := by
  rw [scan_hash_nil]
  simp [eq_comm]

theorem scan_plus_nil_some (prev : Option Byte) (cur : List Byte) (ts : List TopicMatch)
    (w : Bool) :
    scan prev cur [plus] = some (ts, w) ↔
      prevBad prev = false ∧ ts = [plusToken] ∧ w = true := by
  rw [scan_plus_nil]
  cases prevBad prev <;> simp [eq_comm]

theorem scan_plus_slash_some (prev : Option Byte) (cur rest : List Byte)
    (ts : List TopicMatch) (w : Bool) :
    scan prev cur (plus :: slash :: rest) = some (ts, w) ↔
      prevBad prev = false ∧
      ∃ ts' w', scan (some slash) [] rest = some (ts', w') ∧
        ts = plusToken :: ts' ∧ w = true := by
  rw [scan_plus_cons, if_neg (by simp)]
  cases prevBad prev with
  | true => simp
  | false =>
    cases scan (some slash) [] rest with
    | none => simp
    | some r =>
      obtain ⟨ts', w'⟩ := r
      simp [eq_comm]

theorem scan_slash_some (prev : Option Byte) (cur rest : List Byte)
    (ts : List TopicMatch) (w : Bool) :
    scan prev cur (slash :: rest) = some (ts, w) ↔
      ∃ ts', scan (some slash) [] rest = some (ts', w) ∧
        ts = ⟨cur, .ExactMatch⟩ :: ts' := by
  rw [scan_slash]
  cases scan (some slash) [] rest with
  | none => simp
  | some r =>
    obtain ⟨ts', w'⟩ := r
    simp only [Option.map_some', Option.some.injEq, Prod.mk.injEq]
    constructor
    · rintro ⟨rfl, rfl⟩
      exact ⟨ts', ⟨rfl, rfl⟩, rfl⟩
    · rintro ⟨ts'', ⟨rfl, rfl⟩, rfl⟩
      exact ⟨rfl, rfl⟩

/-- The tokens of a successful scan are pure when the pending literal is. -/
theorem scan_pure : ∀ (prev : Option Byte) (cur rest : List Byte),
    ∀ ts w, (∀ x ∈ cur, x ≠ plus ∧ x ≠ hash ∧ x ≠ slash ∧ x ≠ 0) →
      scan prev cur rest = some (ts, w) →
      ∀ t ∈ ts,
        (t.MatchType = MatchType.SingleLevelMatch → t.Value = [plus]) ∧
        (t.MatchType = MatchType.ExactMatch →
          ∀ x ∈ t.Value, x ≠ plus ∧ x ≠ hash ∧ x ≠ slash ∧ x ≠ 0) := by
  refine scan_ind _ ?_ ?_ ?_ ?_ ?_ ?_ ?_ ?_ ?_
  · intro prev cur ts w hc h t ht
    obtain ⟨rfl, rfl⟩ := (scan_nil_some _ _ _ _).mp h
    rw [List.mem_singleton] at ht
    subst ht
    exact ⟨by simp, fun _ => hc⟩
  · intro prev cur rest ts w _ h
    rw [scan_zero] at h
    exact absurd h (by simp)
  · intro prev cur ts w _ h t ht
    obtain ⟨rfl, rfl⟩ := (scan_hash_nil_some _ _ _ _).mp h
    rw [List.mem_singleton] at ht
    subst ht
    exact ⟨by simp, by simp⟩
  · intro prev cur rest hr ts w _ h
    rw [scan_hash_cons _ _ _ hr] at h
    exact absurd h (by simp)
  · intro prev cur ts w _ h t ht
    obtain ⟨_, rfl, rfl⟩ := (scan_plus_nil_some _ _ _ _).mp h
    rw [List.mem_singleton] at ht
    subst ht
    exact ⟨fun _ => rfl, by simp⟩
  · intro prev cur n rest hn ts w _ h
    rw [scan_plus_cons, if_pos hn] at h
    exact absurd h (by simp)
  · intro prev cur rest ih ts w _ h t ht
    obtain ⟨_, ts', w', hs, rfl, rfl⟩ := (scan_plus_slash_some _ _ _ _ _).mp h
    rcases List.mem_cons.mp ht with rfl | ht
    · exact ⟨fun _ => rfl, by simp⟩
    · exact ih ts' w' (by simp) hs t ht
  · intro prev cur rest ih ts w hc h t ht
    obtain ⟨ts', hs, rfl⟩ := (scan_slash_some _ _ _ _ _).mp h
    rcases List.mem_cons.mp ht with rfl | ht
    · exact ⟨by simp, fun _ => hc⟩
    · exact ih ts' w (by simp) hs t ht
  · intro prev cur c rest h0 hh hp hs ih ts w hc h
    rw [scan_other _ _ _ _ h0 hh hp hs] at h
    refine ih ts w ?_ h
    intro x hx
    rcases List.mem_append.mp hx with hx | hx
    · exact hc x hx
    · rw [List.mem_singleton] at hx
      subst hx
      exact ⟨hp, hh, hs, h0⟩

/-- C8: when `ParseTopic` succeeds, every token with `MatchType`
`SingleLevelMatch` has `Value` exactly `"+"`, and the `Value` of every token
with `MatchType` `ExactMatch` contains none of the bytes `'+'`, `'#'`, `'/'`
and NUL. -/
theorem C8_token_purity (b : List Byte) (ts : List TopicMatch) (hw : Bool)
    (h : ParseTopic b = .ret (ts, hw, none)) :
    ∀ t ∈ ts,
      (t.MatchType = MatchType.SingleLevelMatch → t.Value = [plus]) ∧
      (t.MatchType = MatchType.ExactMatch →
        ∀ x ∈ t.Value, x ≠ plus ∧ x ≠ hash ∧ x ≠ slash ∧ x ≠ 0) := by
  obtain ⟨_, hs⟩ := (ParseTopic_ok_iff b ts hw).mp h
  exact scan_pure none [] b ts hw (by simp) hs

/-- C8 at the filter `"ab/+/c"`. -/
theorem C8_token_purity_witness :
    ParseTopic [97, 98, slash, plus, slash, 99]
      = .ret ([⟨[97, 98], .ExactMatch⟩, ⟨[plus], .SingleLevelMatch⟩, ⟨[99], .ExactMatch⟩],
          true, none) ∧
    ∀ t ∈ [(⟨[97, 98], .ExactMatch⟩ : TopicMatch), ⟨[plus], .SingleLevelMatch⟩,
        ⟨[99], .ExactMatch⟩],
      (t.MatchType = MatchType.SingleLevelMatch → t.Value = [plus]) ∧
      (t.MatchType = MatchType.ExactMatch →
        ∀ x ∈ t.Value, x ≠ plus ∧ x ≠ hash ∧ x ≠ slash ∧ x ≠ 0) :=
  ⟨by decide,
    C8_token_purity [97, 98, slash, plus, slash, 99] _ true (by decide)⟩

theorem scan_flag : ∀ (prev : Option Byte) (cur rest : List Byte),
    ∀ ts w, scan prev cur rest = some (ts, w) →
      (w = true ↔ ∃ t ∈ ts, t.MatchType = MatchType.SingleLevelMatch ∨
        t.MatchType = MatchType.MultiLevelMatch) := by
  refine scan_ind _ ?_ ?_ ?_ ?_ ?_ ?_ ?_ ?_ ?_
  · intro prev cur ts w h
    obtain ⟨rfl, rfl⟩ := (scan_nil_some _ _ _ _).mp h
    simp
  · intro prev cur rest ts w h
    rw [scan_zero] at h
    exact absurd h (by simp)
  · intro prev cur ts w h
    obtain ⟨rfl, rfl⟩ := (scan_hash_nil_some _ _ _ _).mp h
    simp
  · intro prev cur rest hr ts w h
    rw [scan_hash_cons _ _ _ hr] at h
    exact absurd h (by simp)
  · intro prev cur ts w h
    obtain ⟨_, rfl, rfl⟩ := (scan_plus_nil_some _ _ _ _).mp h
    simp
  · intro prev cur n rest hn ts w h
    rw [scan_plus_cons, if_pos hn] at h
    exact absurd h (by simp)
  · intro prev cur rest _ ts w h
    obtain ⟨_, ts', w', _, rfl, rfl⟩ := (scan_plus_slash_some _ _ _ _ _).mp h
    simp
  · intro prev cur rest ih ts w h
    obtain ⟨ts', hs, rfl⟩ := (scan_slash_some _ _ _ _ _).mp h
    rw [ih ts' w hs]
    simp
  · intro prev cur c rest h0 hh hp hs ih ts w h
    rw [scan_other _ _ _ _ h0 hh hp hs] at h
    exact ih ts w h

/-- C9: when `ParseTopic` succeeds, `hasWildcard` is true if and only if at
least one returned token has `MatchType` `SingleLevelMatch` or
`MultiLevelMatch`. -/
theorem C9_hasWildcard_iff (b : List Byte) (ts : List TopicMatch) (hw : Bool)
    (h : ParseTopic b = .ret (ts, hw, none)) :
    hw = true ↔ ∃ t ∈ ts, t.MatchType = MatchType.SingleLevelMatch ∨
      t.MatchType = MatchType.MultiLevelMatch := by
  obtain ⟨_, hs⟩ := (ParseTopic_ok_iff b ts hw).mp h
  exact scan_flag none [] b ts hw hs

/-- C9 at the filters `"+/a"` (a wildcard) and `"a/b"` (none). -/
theorem C9_hasWildcard_iff_witness :
    (true = true ↔ ∃ t ∈ [(⟨[plus], .SingleLevelMatch⟩ : TopicMatch), ⟨[97], .ExactMatch⟩],
      t.MatchType = MatchType.SingleLevelMatch ∨
        t.MatchType = MatchType.MultiLevelMatch) ∧
    (false = true ↔ ∃ t ∈ [(⟨[97], .ExactMatch⟩ : TopicMatch), ⟨[98], .ExactMatch⟩],
      t.MatchType = MatchType.SingleLevelMatch ∨
        t.MatchType = MatchType.MultiLevelMatch) :=
  ⟨C9_hasWildcard_iff [plus, slash, 97] _ true (by decide),
    C9_hasWildcard_iff [97, slash, 98] _ false (by decide)⟩

theorem getLast?_tail_ne (c x : Byte) (rest : List Byte)
    (h : (c :: rest).getLast? ≠ some x) : rest.getLast? ≠ some x := by
  cases rest with
  | nil => simp
  | cons d rest => rwa [List.getLast?_cons_cons] at h

theorem scan_trailing_slash : ∀ (prev : Option Byte) (cur rest : List Byte),
    ∀ ts w, scan prev cur rest = some (ts, w) → rest.getLast? ≠ some hash →
      scan prev cur (rest ++ [slash]) = some (ts ++ [⟨[], .ExactMatch⟩], w) := by
  refine scan_ind _ ?_ ?_ ?_ ?_ ?_ ?_ ?_ ?_ ?_
  · intro prev cur ts w h _
    obtain ⟨rfl, rfl⟩ := (scan_nil_some _ _ _ _).mp h
    rw [List.nil_append, scan_slash_some]
    exact ⟨_, (scan_nil_some _ _ _ _).mpr ⟨rfl, rfl⟩, rfl⟩
  · intro prev cur rest ts w h
    rw [scan_zero] at h
    exact absurd h (by simp)
  · intro prev cur ts w _ hl
    exact absurd rfl hl
  · intro prev cur rest hr ts w h
    rw [scan_hash_cons _ _ _ hr] at h
    exact absurd h (by simp)
  · intro prev cur ts w h _
    obtain ⟨hpb, rfl, rfl⟩ := (scan_plus_nil_some _ _ _ _).mp h
    rw [List.singleton_append, scan_plus_slash_some]
    exact ⟨hpb, _, _, (scan_nil_some _ _ _ _).mpr ⟨rfl, rfl⟩, rfl, rfl⟩
  · intro prev cur n rest hn ts w h
    rw [scan_plus_cons, if_pos hn] at h
    exact absurd h (by simp)
  · intro prev cur rest ih ts w h hl
    obtain ⟨hpb, ts', w', hs, rfl, rfl⟩ := (scan_plus_slash_some _ _ _ _ _).mp h
    have hl' : rest.getLast? ≠ some hash :=
      getLast?_tail_ne _ _ _ (getLast?_tail_ne _ _ _ hl)
    rw [List.cons_append, List.cons_append, scan_plus_slash_some]
    exact ⟨hpb, _, _, ih ts' w' hs hl', rfl, rfl⟩
  · intro prev cur rest ih ts w h hl
    obtain ⟨ts', hs, rfl⟩ := (scan_slash_some _ _ _ _ _).mp h
    rw [List.cons_append, scan_slash_some]
    exact ⟨_, ih ts' w hs (getLast?_tail_ne _ _ _ hl), rfl⟩
  · intro prev cur c rest h0 hh hp hs ih ts w h hl
    rw [scan_other _ _ _ _ h0 hh hp hs] at h
    rw [List.cons_append, scan_other _ _ _ _ h0 hh hp hs]
    exact ih ts w h (getLast?_tail_ne _ _ _ hl)

/-- C10: when `ParseTopic(s)` succeeds with tokens `ts` and `s` does not end
in `'#'`, `ParseTopic(s ++ "/")` succeeds with the tokens `ts` followed by the
empty `ExactMatch` token and with the same `hasWildcard`; the two token
sequences differ. -/
theorem C10_trailing_separator (s : List Byte) (ts : List TopicMatch) (hw : Bool)
    (h : ParseTopic s = .ret (ts, hw, none)) (hl : s.getLast? ≠ some hash) :
    ParseTopic (s ++ [slash]) = .ret (ts ++ [⟨[], .ExactMatch⟩], hw, none) ∧
    ts ++ [⟨[], .ExactMatch⟩] ≠ ts := by
  obtain ⟨_, hs⟩ := (ParseTopic_ok_iff s ts hw).mp h
  refine ⟨(ParseTopic_ok_iff _ _ _).mpr ⟨by simp, scan_trailing_slash _ _ _ ts hw hs hl⟩, ?_⟩
  intro heq
  have := congrArg List.length heq
  simp at this

/-- C10 at `"a/b"`: `ParseTopic("a/b/")` returns the tokens of
`ParseTopic("a/b")` followed by an empty literal, a different sequence. -/
theorem C10_trailing_separator_witness :
    ParseTopic [97, slash, 98]
      = .ret ([⟨[97], .ExactMatch⟩, ⟨[98], .ExactMatch⟩], false, none) ∧
    ParseTopic ([97, slash, 98] ++ [slash])
      = .ret ([⟨[97], .ExactMatch⟩, ⟨[98], .ExactMatch⟩] ++ [⟨[], .ExactMatch⟩],
          false, none) ∧
    [(⟨[97], .ExactMatch⟩ : TopicMatch), ⟨[98], .ExactMatch⟩] ++ [⟨[], .ExactMatch⟩]
      ≠ [⟨[97], .ExactMatch⟩, ⟨[98], .ExactMatch⟩] :=
  ⟨by decide,
    C10_trailing_separator [97, slash, 98] _ false (by decide) (by decide)⟩

theorem intercalate_cons_cons (sep x y : List Byte) (l : List (List Byte)) :
    sep.intercalate (x :: y :: l) = x ++ sep ++ sep.intercalate (y :: l) := by
  simp [List.intercalate, List.intersperse]

theorem intercalate_cons_of_ne_nil (sep x : List Byte) (l : List (List Byte)) (h : l ≠ []) :
    sep.intercalate (x :: l) = x ++ sep ++ sep.intercalate l := by
  cases l with
  | nil => exact absurd rfl h
  | cons y l => exact intercalate_cons_cons sep x y l

theorem intercalate_singleton (sep x : List Byte) : sep.intercalate [x] = x := by
  simp [List.intercalate, List.intersperse]

theorem ParseTopicName_ok_iff (b : List Byte) (ls : List (List Byte)) :
    ParseTopicName b = .ret (ls, none) ↔ b ≠ [] ∧ scanName [] b = some ls := by
  by_cases hb : b = []
  · subst hb
    simp [ParseTopicName]
  · rw [ParseTopicName_eq_scanName b hb]
    cases hs : scanName [] b with
    | none => simp [packName]
    | some r => simp [packName, hb]

theorem scanName_split (rest : List Byte) : ∀ (cur : List Byte) (ls : List (List Byte)),
    scanName cur rest = some ls → slash ∉ cur →
      ls ≠ [] ∧ (∀ l ∈ ls, slash ∉ l) ∧ [slash].intercalate ls = cur ++ rest := by
  induction rest with
  | nil =>
    intro cur ls h hc
    rw [scanName_nil] at h
    obtain rfl := Option.some.inj h
    refine ⟨by simp, ?_, by rw [intercalate_singleton, List.append_nil]⟩
    intro l hl
    rw [List.mem_singleton] at hl
    subst hl
    exact hc
  | cons c rest ih =>
    intro cur ls h hc
    by_cases hbad : c = hash ∨ c = plus ∨ c = 0
    · rw [scanName_bad _ _ _ hbad] at h
      exact absurd h (by simp)
    · by_cases hs : c = slash
      · subst hs
        rw [scanName_slash] at h
        cases hr : scanName [] rest with
        | none => simp [hr] at h
        | some r =>
          rw [hr] at h
          obtain rfl := Option.some.inj h
          obtain ⟨h1, h2, h3⟩ := ih [] r hr (by simp)
          refine ⟨by simp, ?_, ?_⟩
          · intro l hl
            rcases List.mem_cons.mp hl with rfl | hl
            · exact hc
            · exact h2 l hl
          · rw [intercalate_cons_of_ne_nil _ _ _ h1, h3]
            simp
      · rw [scanName_other _ _ _ hbad hs] at h
        have hc' : slash ∉ cur ++ [c] := by
          intro hm
          rcases List.mem_append.mp hm with hm | hm
          · exact hc hm
          · rw [List.mem_singleton] at hm
            exact hs hm.symm
        obtain ⟨h1, h2, h3⟩ := ih (cur ++ [c]) ls h hc'
        exact ⟨h1, h2, by rw [h3]; simp⟩

/-- C15: when `ParseTopicName(b)` succeeds with levels `ls`, `ls` is non-empty,
no level contains the byte `'/'`, and joining `ls` with `"/"` yields exactly
`b`. -/
theorem C15_ParseTopicName_splits_on_separator (b : List Byte) (ls : List (List Byte))
    (h : ParseTopicName b = .ret (ls, none)) :
    ls ≠ [] ∧ (∀ l ∈ ls, slash ∉ l) ∧ [slash].intercalate ls = b := by
  obtain ⟨_, hs⟩ := (ParseTopicName_ok_iff b ls).mp h
  have := scanName_split b [] ls hs (by simp)
  simpa using this

/-- C15 at the name `"/a//b/"`: empty levels for the leading, the adjacent and
the trailing separator. -/
theorem C15_ParseTopicName_splits_on_separator_witness :
    ParseTopicName [slash, 97, slash, slash, 98, slash]
      = .ret ([[], [97], [], [98], []], none) ∧
    ([[], [97], [], [98], []] : List (List Byte)) ≠ [] ∧
    (∀ l ∈ ([[], [97], [], [98], []] : List (List Byte)), slash ∉ l) ∧
    [slash].intercalate [[], [97], [], [98], []] = [slash, 97, slash, slash, 98, slash] :=
  ⟨by decide,
    C15_ParseTopicName_splits_on_separator [slash, 97, slash, slash, 98, slash] _
      (by decide)⟩

theorem scan_length : ∀ (prev : Option Byte) (cur rest : List Byte),
    ∀ ts w, scan prev cur rest = some (ts, w) → ts.length = rest.count slash + 1 := by
  refine scan_ind _ ?_ ?_ ?_ ?_ ?_ ?_ ?_ ?_ ?_
  · intro prev cur ts w h
    obtain ⟨rfl, rfl⟩ := (scan_nil_some _ _ _ _).mp h
    rfl
  · intro prev cur rest ts w h
    rw [scan_zero] at h
    exact absurd h (by simp)
  · intro prev cur ts w h
    obtain ⟨rfl, rfl⟩ := (scan_hash_nil_some _ _ _ _).mp h
    decide
  · intro prev cur rest hr ts w h
    rw [scan_hash_cons _ _ _ hr] at h
    exact absurd h (by simp)
  · intro prev cur ts w h
    obtain ⟨_, rfl, rfl⟩ := (scan_plus_nil_some _ _ _ _).mp h
    decide
  · intro prev cur n rest hn ts w h
    rw [scan_plus_cons, if_pos hn] at h
    exact absurd h (by simp)
  · intro prev cur rest ih ts w h
    obtain ⟨_, ts', w', hs, rfl, rfl⟩ := (scan_plus_slash_some _ _ _ _ _).mp h
    rw [List.length_cons, ih ts' w' hs, List.count_cons_of_ne (by decide),
      List.count_cons_self]
  · intro prev cur rest ih ts w h
    obtain ⟨ts', hs, rfl⟩ := (scan_slash_some _ _ _ _ _).mp h
    rw [List.length_cons, ih ts' w hs, List.count_cons_self]
  · intro prev cur c rest h0 hh hp hs ih ts w h
    rw [scan_other _ _ _ _ h0 hh hp hs] at h
    rw [ih ts w h, List.count_cons_of_ne (fun h => hs h.symm)]

/-- C16: when `ParseTopic(b)` succeeds, the number of returned tokens is the
number of `'/'` bytes in `b` plus one; in particular the token sequence is not
empty. -/
theorem C16_one_token_per_level (b : List Byte) (ts : List TopicMatch) (hw : Bool)
    (h : ParseTopic b = .ret (ts, hw, none)) :
    ts.length = b.count slash + 1 ∧ ts ≠ [] := by
  obtain ⟨_, hs⟩ := (ParseTopic_ok_iff b ts hw).mp h
  have hl := scan_length none [] b ts hw hs
  refine ⟨hl, ?_⟩
  intro hnil
  rw [hnil] at hl
  simp at hl

/-- C16 at the filter `"a/+//#"`: three separators, four tokens. -/
theorem C16_one_token_per_level_witness :
    ParseTopic [97, slash, plus, slash, slash, hash]
      = .ret ([⟨[97], .ExactMatch⟩, plusToken, ⟨[], .ExactMatch⟩, hashToken], true, none) ∧
    [(⟨[97], .ExactMatch⟩ : TopicMatch), plusToken, ⟨[], .ExactMatch⟩, hashToken].length
      = [97, slash, plus, slash, slash, hash].count slash + 1 ∧
    [(⟨[97], .ExactMatch⟩ : TopicMatch), plusToken, ⟨[], .ExactMatch⟩, hashToken] ≠ [] :=
  ⟨by decide,
    C16_one_token_per_level [97, slash, plus, slash, slash, hash] _ true (by decide)⟩

theorem scan_prev_congr (prev prev' : Option Byte) (cur t : List Byte)
    (h : prevBad prev = prevBad prev') : scan prev cur t = scan prev' cur t := by
  cases t with
  | nil => rw [scan_nil, scan_nil]
  | cons c t =>
    rw [scan.eq_def prev, scan.eq_def prev']
    simp only [h]

theorem scan_append : ∀ (prev : Option Byte) (cur rest : List Byte),
    ∀ ts w t tt wt, scan prev cur rest = some (ts, w) → hash ∉ rest →
      scan (some slash) [] t = some (tt, wt) →
      scan prev cur (rest ++ slash :: t) = some (ts ++ tt, w || wt) := by
  refine scan_ind _ ?_ ?_ ?_ ?_ ?_ ?_ ?_ ?_ ?_
  · intro prev cur ts w t tt wt h _ ht
    obtain ⟨rfl, rfl⟩ := (scan_nil_some _ _ _ _).mp h
    rw [List.nil_append, scan_slash_some]
    exact ⟨tt, by simpa using ht, rfl⟩
  · intro prev cur rest ts w t tt wt h
    rw [scan_zero] at h
    exact absurd h (by simp)
  · intro prev cur ts w t tt wt _ hh
    exact absurd (List.mem_singleton.mpr rfl) hh
  · intro prev cur rest hr ts w t tt wt h
    rw [scan_hash_cons _ _ _ hr] at h
    exact absurd h (by simp)
  · intro prev cur ts w t tt wt h _ ht
    obtain ⟨hpb, rfl, rfl⟩ := (scan_plus_nil_some _ _ _ _).mp h
    rw [List.singleton_append, scan_plus_slash_some]
    exact ⟨hpb, tt, wt, ht, rfl, rfl⟩
  · intro prev cur n rest hn ts w t tt wt h
    rw [scan_plus_cons, if_pos hn] at h
    exact absurd h (by simp)
  · intro prev cur rest ih ts w t tt wt h hh ht
    obtain ⟨hpb, ts', w', hs, rfl, rfl⟩ := (scan_plus_slash_some _ _ _ _ _).mp h
    have hh' : hash ∉ rest := fun hm =>
      hh (List.mem_cons_of_mem _ (List.mem_cons_of_mem _ hm))
    rw [List.cons_append, List.cons_append, scan_plus_slash_some]
    exact ⟨hpb, _, _, ih ts' w' t tt wt hs hh' ht, rfl, rfl⟩
  · intro prev cur rest ih ts w t tt wt h hh ht
    obtain ⟨ts', hs, rfl⟩ := (scan_slash_some _ _ _ _ _).mp h
    have hh' : hash ∉ rest := fun hm => hh (List.mem_cons_of_mem _ hm)
    rw [List.cons_append, scan_slash_some]
    exact ⟨_, ih ts' w t tt wt hs hh' ht, rfl⟩
  · intro prev cur c rest h0 hh hp hs ih ts w t tt wt h hhash ht
    rw [scan_other _ _ _ _ h0 hh hp hs] at h
    have hh' : hash ∉ rest := fun hm => hhash (List.mem_cons_of_mem _ hm)
    rw [List.cons_append, scan_other _ _ _ _ h0 hh hp hs]
    exact ih ts w t tt wt h hh' ht

/-- C17: when `ParseTopic(s)` succeeds with `(ts, hs)`, `s` does not contain
`'#'`, and `ParseTopic(t)` succeeds with `(tt, ht)`, then
`ParseTopic(s ++ "/" ++ t)` succeeds with tokens `ts ++ tt` and
`hasWildcard = hs || ht`. -/
theorem C17_compositional_over_separator (s t : List Byte) (ts tt : List TopicMatch)
    (hs ht : Bool) (h1 : ParseTopic s = .ret (ts, hs, none)) (hh : hash ∉ s)
    (h2 : ParseTopic t = .ret (tt, ht, none)) :
    ParseTopic (s ++ [slash] ++ t) = .ret (ts ++ tt, hs || ht, none) := by
  obtain ⟨_, hs1⟩ := (ParseTopic_ok_iff s ts hs).mp h1
  obtain ⟨_, hs2⟩ := (ParseTopic_ok_iff t tt ht).mp h2
  have hs2' : scan (some slash) [] t = some (tt, ht) := by
    rw [scan_prev_congr (some slash) none [] t (by decide)]
    exact hs2
  refine (ParseTopic_ok_iff _ _ _).mpr ⟨by simp, ?_⟩
  rw [List.append_assoc, List.singleton_append]
  exact scan_append none [] s ts hs t tt ht hs1 hh hs2'

/-- C17 at `s = "a/+"` and `t = "b/#"`. -/
theorem C17_compositional_over_separator_witness :
    ParseTopic [97, slash, plus] = .ret ([⟨[97], .ExactMatch⟩, plusToken], true, none) ∧
    ParseTopic [98, slash, hash] = .ret ([⟨[98], .ExactMatch⟩, hashToken], true, none) ∧
    ParseTopic ([97, slash, plus] ++ [slash] ++ [98, slash, hash])
      = .ret ([⟨[97], .ExactMatch⟩, plusToken] ++ [⟨[98], .ExactMatch⟩, hashToken],
          true || true, none) :=
  ⟨by decide, by decide,
    C17_compositional_over_separator [97, slash, plus] [98, slash, hash] _ _ true true
      (by decide) (by decide) (by decide)⟩

/-- C18: `ParseTopic` returns on every input: no index or slice expression
that is evaluated is out of its bounds and the scan loop ends.  The fuel of
the model is not what makes it end: with any fuel above `len(b)` the loop
returns the same result. -/
theorem C18_ParseTopic_total (b : List Byte) :
    ∃ r, ParseTopic b = .ret r ∧
      (b ≠ [] → ∀ fuel, b.length < fuel →
        ParseTopic.loop b ((b.length : Int) - 1) fuel 0 0 [] false = .ret r) := by
  by_cases hb : b = []
  · subst hb
    exact ⟨invalidTopic, rfl, fun h => absurd rfl h⟩
  · refine ⟨pack [] false (scan none [] b), ParseTopic_eq_scan b hb, fun _ fuel hf => ?_⟩
    have := ParseTopic.loop_eq_scan fuel [] b 0 [] false (by simpa using hb)
      (le_refl _) (by simp) (by intro _; left; rfl) hf
    simpa using this

theorem scan_ne_nil (prev : Option Byte) (cur rest : List Byte) (ts : List TopicMatch)
    (w : Bool) (h : scan prev cur rest = some (ts, w)) : ts ≠ [] := by
  obtain ⟨init, l, rfl, _, _⟩ := scan_multi prev cur rest ts w h
  simp

theorem stringify_cons (t : TopicMatch) (ts : List TopicMatch) (h : ts ≠ []) :
    stringifyTopicToken (t :: ts) = t.Value ++ [slash] ++ stringifyTopicToken ts := by
  rw [stringifyTopicToken, stringifyTopicToken, List.map_cons,
    intercalate_cons_of_ne_nil _ _ _ (by simpa using h)]

theorem stringify_singleton (t : TopicMatch) : stringifyTopicToken [t] = t.Value := by
  simp [stringifyTopicToken, List.intercalate, List.intersperse]

theorem scan_round_trip : ∀ (prev : Option Byte) (cur rest : List Byte),
    ∀ ts w, scan prev cur rest = some (ts, w) → (prevBad prev = false → cur = []) →
      (∀ i, rest[i]? = some hash → prevBad (byteBefore prev rest i) = false) →
      stringifyTopicToken ts = cur ++ rest := by
  refine scan_ind _ ?_ ?_ ?_ ?_ ?_ ?_ ?_ ?_ ?_
  · intro prev cur ts w h _ _
    obtain ⟨rfl, rfl⟩ := (scan_nil_some _ _ _ _).mp h
    rw [stringify_singleton, List.append_nil]
  · intro prev cur rest ts w h
    rw [scan_zero] at h
    exact absurd h (by simp)
  · intro prev cur ts w h hc hh
    obtain ⟨rfl, rfl⟩ := (scan_hash_nil_some _ _ _ _).mp h
    have hcur : cur = [] := hc (hh 0 rfl)
    rw [stringify_singleton, hcur]
    rfl
  · intro prev cur rest hr ts w h
    rw [scan_hash_cons _ _ _ hr] at h
    exact absurd h (by simp)
  · intro prev cur ts w h hc _
    obtain ⟨hpb, rfl, rfl⟩ := (scan_plus_nil_some _ _ _ _).mp h
    rw [stringify_singleton, hc hpb]
    rfl
  · intro prev cur n rest hn ts w h
    rw [scan_plus_cons, if_pos hn] at h
    exact absurd h (by simp)
  · intro prev cur rest ih ts w h hc hh
    obtain ⟨hpb, ts', w', hs, rfl, rfl⟩ := (scan_plus_slash_some _ _ _ _ _).mp h
    have hh' : ∀ i, rest[i]? = some hash → prevBad (byteBefore (some slash) rest i) = false := by
      intro i hi
      have := hh (i + 2) (by simpa using hi)
      rwa [byteBefore_cons, byteBefore_cons] at this
    rw [stringify_cons _ _ (scan_ne_nil _ _ _ _ _ hs), ih ts' w' hs (fun _ => rfl) hh',
      hc hpb]
    rfl
  · intro prev cur rest ih ts w h hc hh
    obtain ⟨ts', hs, rfl⟩ := (scan_slash_some _ _ _ _ _).mp h
    have hh' : ∀ i, rest[i]? = some hash → prevBad (byteBefore (some slash) rest i) = false := by
      intro i hi
      have := hh (i + 1) (by simpa using hi)
      rwa [byteBefore_cons] at this
    rw [stringify_cons _ _ (scan_ne_nil _ _ _ _ _ hs), ih ts' w hs (fun _ => rfl) hh']
    simp
  · intro prev cur c rest h0 hh hp hs ih ts w h hc hhash
    rw [scan_other _ _ _ _ h0 hh hp hs] at h
    have hh' : ∀ i, rest[i]? = some hash → prevBad (byteBefore (some c) rest i) = false := by
      intro i hi
      have := hhash (i + 1) (by simpa using hi)
      rwa [byteBefore_cons] at this
    rw [ih ts w h (by intro hb; simp [prevBad, hs] at hb) hh']
    simp

/-- C19: when `ParseTopic(b)` succeeds and every `'#'` of `b` is the first
byte or immediately preceded by `'/'`, joining the `Value` fields of the
returned tokens with `"/"` yields exactly `b`. -/
theorem C19_round_trip_when_hash_is_a_level (b : List Byte) (ts : List TopicMatch)
    (hw : Bool) (h : ParseTopic b = .ret (ts, hw, none))
    (hh : ∀ i, b[i]? = some hash → i = 0 ∨ b[i - 1]? = some slash) :
    stringifyTopicToken ts = b := by
  obtain ⟨_, hs⟩ := (ParseTopic_ok_iff b ts hw).mp h
  have := scan_round_trip none [] b ts hw hs (fun _ => rfl) (by
    intro i hi
    cases i with
    | zero => rfl
    | succ j =>
      rcases hh (j + 1) hi with h0 | h1
      · omega
      · simp only [byteBefore]
        rw [Nat.add_sub_cancel] at h1
        rw [h1]
        rfl)
  simpa using this

/-- C19 at the filter `"a//+/#"`. -/
theorem C19_round_trip_when_hash_is_a_level_witness :
    ParseTopic [97, slash, slash, plus, slash, hash]
      = .ret ([⟨[97], .ExactMatch⟩, ⟨[], .ExactMatch⟩, plusToken, hashToken], true, none) ∧
    stringifyTopicToken [⟨[97], .ExactMatch⟩, ⟨[], .ExactMatch⟩, plusToken, hashToken]
      = [97, slash, slash, plus, slash, hash] :=
  ⟨by decide,
    C19_round_trip_when_hash_is_a_level [97, slash, slash, plus, slash, hash] _ true
      (by decide) (by
        intro i hi
        have h5 : i = 5 := by
          rcases i with _ | _ | _ | _ | _ | _ | i <;> simp at hi ⊢
        subst h5
        right
        rfl)⟩

end topics

end MqttBroker

namespace MqttBroker

namespace protocol

/-- C11: the code does not do what the claim says.  For a fresh two-byte
buffer (cells 0 and 1) and three bytes `1, 2, 3` to write, stored behind it,
`bytesWritten() + len(p) > len(buf)` and yet `Write(p)` returns normally with
`n = 3` and a nil error: it has copied only `1, 2` and set `lastWriteIndex` to
`2`, past the end of the buffer.  `WriteByte` on the full buffer panics, and
so does a `Write` on the state that the first `Write` left. -/
theorem C11_Write_past_end_returns :
    (newWritableBuf { ptr := 0, len := 2 }).bytesWritten
        + ((({ ptr := 2, len := 3 } : GoSlice).len : Nat) : Int)
      > ((({ ptr := 0, len := 2 } : GoSlice).len : Nat) : Int) ∧
    (newWritableBuf { ptr := 0, len := 2 }).Write [9, 9, 1, 2, 3] { ptr := 2, len := 3 }
      = .ret ([1, 2, 1, 2, 3], { buf := { ptr := 0, len := 2 }, lastWriteIndex := 2 },
          3, none) ∧
    ({ buf := { ptr := 0, len := 2 }, lastWriteIndex := 1 } : writableBuf).WriteByte
        [1, 2, 1, 2, 3] 7 = .fault .indexOutOfRange ∧
    ({ buf := { ptr := 0, len := 2 }, lastWriteIndex := 2 } : writableBuf).Write
        [1, 2, 1, 2, 3] { ptr := 2, len := 3 } = .fault .sliceOutOfRange := by
  decide

end protocol

end MqttBroker

namespace MqttBroker

namespace broker

open topics

@[simp] theorem feed_absent : Node.absent.feed = none := rfl
@[simp] theorem feed_node (f : Option Feed) (c : Key → Node) : (Node.node f c).feed = f := rfl
@[simp] theorem child_absent (k : Key) : Node.absent.child k = .absent := rfl
@[simp] theorem child_node (f : Option Feed) (c : Key → Node) (k : Key) :
    (Node.node f c).child k = c k := rfl

@[simp] theorem lookup_nil (n : Node) : Node.lookup [] n = n.feed := rfl
@[simp] theorem lookup_cons (k : Key) (ks : List Key) (n : Node) :
    Node.lookup (k :: ks) n = Node.lookup ks (n.child k) := rfl

@[simp] theorem lookup_absent (ks : List Key) : Node.lookup ks .absent = none := by
  induction ks with
  | nil => rfl
  | cons k ks ih => simpa using ih

theorem setChild_apply (c : Key → Node) (k k' : Key) (n : Node) :
    setChild c k n k' = if k' = k then n else c k' := rfl

theorem initFeed_result (fresh : Feed) (ts : List TopicMatch) : ∀ n : Node,
    (Node.initFeed fresh ts n).2.1 = ((Node.lookup (ts.map keyOf) n).getD fresh) ∧
    (Node.initFeed fresh ts n).2.2 = (Node.lookup (ts.map keyOf) n).isSome := by
  induction ts with
  | nil =>
    intro n
    simp only [Node.initFeed, List.map_nil, lookup_nil]
    cases n.feed <;> simp
  | cons t ts ih =>
    intro n
    simpa [Node.initFeed] using ih (n.child (keyOf t))

theorem initFeed_lookup (fresh : Feed) (ts : List TopicMatch) : ∀ (n : Node) (ks : List Key),
    Node.lookup ks (Node.initFeed fresh ts n).1 =
      if ks = ts.map keyOf then some ((Node.lookup (ts.map keyOf) n).getD fresh)
      else Node.lookup ks n := by
  induction ts with
  | nil =>
    intro n ks
    simp only [Node.initFeed, List.map_nil, lookup_nil]
    cases hf : n.feed with
    | none =>
      cases ks with
      | nil => simp
      | cons k ks => simp
    | some f =>
      cases ks with
      | nil => simp [hf]
      | cons k ks => simp
  | cons t ts ih =>
    intro n ks
    cases ks with
    | nil => simp [Node.initFeed]
    | cons k ks =>
      simp only [Node.initFeed, lookup_cons, child_node, setChild_apply, List.map_cons,
        List.cons.injEq]
      by_cases hk : k = keyOf t
      · subst hk
        simp [ih]
      · simp [hk]

theorem removeFeed_result (ts : List TopicMatch) : ∀ n : Node,
    (Node.removeFeed ts n).2 = Node.lookup (ts.map keyOf) n := by
  induction ts with
  | nil =>
    intro n
    cases n <;> simp [Node.removeFeed]
  | cons t ts ih =>
    intro n
    cases n with
    | absent => simp [Node.removeFeed]
    | node f c => simpa [Node.removeFeed] using ih (c (keyOf t))

theorem removeFeed_lookup (ts : List TopicMatch) : ∀ (n : Node) (ks : List Key),
    Node.lookup ks (Node.removeFeed ts n).1 =
      if ks = ts.map keyOf then none else Node.lookup ks n := by
  induction ts with
  | nil =>
    intro n ks
    cases n with
    | absent => simp [Node.removeFeed]
    | node f c =>
      cases ks with
      | nil => simp [Node.removeFeed]
      | cons k ks => simp [Node.removeFeed]
  | cons t ts ih =>
    intro n ks
    cases n with
    | absent => simp [Node.removeFeed]
    | node f c =>
      cases ks with
      | nil => simp [Node.removeFeed]
      | cons k ks =>
        simp only [Node.removeFeed, lookup_cons, child_node, setChild_apply, List.map_cons,
          List.cons.injEq]
        by_cases hk : k = keyOf t
        · subst hk
          simp [ih]
        · simp [hk]

theorem levelsMatch_nil_left (p : List TopicMatch) : levelsMatch [] p = p.isEmpty := by
  cases p <;> rfl

theorem levelsMatch_cons_nil (h : TopicMatch) (f : List TopicMatch) :
    levelsMatch (h :: f) [] = false := rfl

theorem levelsMatch_cons_cons (h t : TopicMatch) (f p : List TopicMatch) :
    levelsMatch (h :: f) (t :: p) = (levelMatches h t && levelsMatch f p) := rfl

theorem levelMatches_multi (h t : TopicMatch) (hm : h.MatchType = MatchType.MultiLevelMatch) :
    levelMatches h t = false := by
  simp [levelMatches, hm]

theorem endsInHash_singleton (h : TopicMatch) :
    endsInHash [h] = decide (h.MatchType = MatchType.MultiLevelMatch) := rfl

theorem endsInHash_cons_cons (h b : TopicMatch) (l : List TopicMatch) :
    endsInHash (h :: b :: l) = endsInHash (b :: l) := by
  simp [endsInHash, List.getLast?_cons_cons]

theorem filterMatches_nil (p : List TopicMatch) : filterMatches [] p = p.isEmpty := by
  simp [filterMatches, endsInHash, levelsMatch_nil_left]

theorem filterMatches_multi (h : TopicMatch) (f p : List TopicMatch)
    (hm : h.MatchType = MatchType.MultiLevelMatch) :
    filterMatches (h :: f) p = f.isEmpty := by
  cases f with
  | nil => simp [filterMatches, endsInHash_singleton, hm, levelsMatch]
  | cons b l =>
    cases p with
    | nil => simp [filterMatches, levelsMatch]
    | cons t rest =>
      simp [filterMatches, levelsMatch_cons_cons, levelMatches_multi h t hm, List.dropLast]

theorem filterMatches_cons_nil (h : TopicMatch) (f : List TopicMatch)
    (hm : h.MatchType ≠ MatchType.MultiLevelMatch) :
    filterMatches (h :: f) [] = false := by
  cases f with
  | nil => simp [filterMatches, endsInHash_singleton, hm, levelsMatch]
  | cons b l => simp [filterMatches, levelsMatch, List.dropLast]

theorem filterMatches_cons_cons (h t : TopicMatch) (f p : List TopicMatch)
    (hm : h.MatchType ≠ MatchType.MultiLevelMatch) :
    filterMatches (h :: f) (t :: p) = (levelMatches h t && filterMatches f p) := by
  cases f with
  | nil =>
    simp [filterMatches, endsInHash_singleton, hm, levelsMatch_cons_cons, endsInHash]
  | cons b l =>
    simp only [filterMatches, endsInHash_cons_cons, List.dropLast, List.length_cons,
      Nat.add_sub_cancel, List.take_succ_cons, levelsMatch_cons_cons]
    cases levelMatches h t <;> cases endsInHash (b :: l) <;> simp

theorem keyOf_multi (h : TopicMatch) (hm : h.MatchType = MatchType.MultiLevelMatch) :
    keyOf h = Key.multi := by
  simp [keyOf, hm]

theorem mem_matchFeeds (p : List TopicMatch) : ∀ (n : Node) (feed : Feed),
    feed ∈ Node.matchFeeds p n ↔
      ∃ f, filterMatches f p = true ∧ Node.lookup (f.map keyOf) n = some feed := by
  induction p with
  | nil =>
    intro n feed
    simp only [Node.matchFeeds, List.mem_append, Option.mem_toList, Option.mem_def]
    constructor
    · rintro (h | h)
      · exact ⟨[hashToken], by decide, by simpa [keyOf] using h⟩
      · exact ⟨[], by decide, by simpa using h⟩
    · rintro ⟨f, hf, hl⟩
      cases f with
      | nil => exact Or.inr (by simpa using hl)
      | cons h f' =>
        by_cases hm : h.MatchType = MatchType.MultiLevelMatch
        · rw [filterMatches_multi h f' [] hm] at hf
          have hf' : f' = [] := by simpa using hf
          subst hf'
          left
          simpa [keyOf_multi h hm] using hl
        · rw [filterMatches_cons_nil h f' hm] at hf
          exact absurd hf (by simp)
  | cons t rest ih =>
    intro n feed
    simp only [Node.matchFeeds, List.mem_append, Option.mem_toList, Option.mem_def, ih]
    constructor
    · rintro (h | ⟨f', hf', hl⟩ | ⟨f', hf', hl⟩)
      · exact ⟨[hashToken], by rw [filterMatches_multi _ _ _ rfl]; rfl,
          by simpa [keyOf] using h⟩
      · refine ⟨lit t.Value :: f', ?_, ?_⟩
        · rw [filterMatches_cons_cons _ _ _ _ (by simp), hf']
          simp [levelMatches]
        · simpa [keyOf] using hl
      · refine ⟨plusToken :: f', ?_, ?_⟩
        · rw [filterMatches_cons_cons _ _ _ _ (by simp), hf']
          simp [levelMatches]
        · simpa [keyOf] using hl
    · rintro ⟨f, hf, hl⟩
      cases f with
      | nil => simp [filterMatches_nil] at hf
      | cons h f' =>
        by_cases hm : h.MatchType = MatchType.MultiLevelMatch
        · rw [filterMatches_multi h f' _ hm] at hf
          have hf' : f' = [] := by simpa using hf
          subst hf'
          left
          simpa [keyOf_multi h hm] using hl
        · rw [filterMatches_cons_cons h t f' rest hm, Bool.and_eq_true] at hf
          obtain ⟨hlm, hf'⟩ := hf
          right
          cases hmt : h.MatchType with
          | ExactMatch =>
            have hv : h.Value = t.Value := by simpa [levelMatches, hmt] using hlm
            left
            refine ⟨f', hf', ?_⟩
            simpa [keyOf, hmt, hv] using hl
          | SingleLevelMatch =>
            right
            refine ⟨f', hf', ?_⟩
            simpa [keyOf, hmt] using hl
          | MultiLevelMatch => exact absurd hmt hm

theorem Inj_child (n : Node) (k : Key) (h : n.Inj) : (n.child k).Inj := by
  intro ks ks' feed h1 h2
  have := h (k :: ks) (k :: ks') feed (by simpa using h1) (by simpa using h2)
  simpa using this

theorem nodup_toList (o : Option Feed) : o.toList.Nodup := by
  cases o <;> simp

theorem mem_matchFeeds_lookup (p : List TopicMatch) (n : Node) (feed : Feed)
    (h : feed ∈ Node.matchFeeds p n) : ∃ ks, Node.lookup ks n = some feed := by
  obtain ⟨f, _, hl⟩ := (mem_matchFeeds p n feed).mp h
  exact ⟨_, hl⟩

theorem nodup_matchFeeds (p : List TopicMatch) : ∀ n : Node, n.Inj →
    (Node.matchFeeds p n).Nodup := by
  induction p with
  | nil =>
    intro n hn
    simp only [Node.matchFeeds]
    refine List.nodup_append.mpr ⟨nodup_toList _, nodup_toList _, ?_⟩
    intro feed h1 h2
    rw [Option.mem_toList, Option.mem_def] at h1 h2
    have := hn [Key.multi] [] feed (by simpa using h1) (by simpa using h2)
    simp at this
  | cons t rest ih =>
    intro n hn
    simp only [Node.matchFeeds]
    refine List.nodup_append.mpr ⟨nodup_toList _, ?_, ?_⟩
    · refine List.nodup_append.mpr
        ⟨ih _ (Inj_child n _ hn), ih _ (Inj_child n _ hn), ?_⟩
      intro feed h1 h2
      obtain ⟨ks, hks⟩ := mem_matchFeeds_lookup _ _ _ h1
      obtain ⟨ks', hks'⟩ := mem_matchFeeds_lookup _ _ _ h2
      have := hn (Key.literal t.Value :: ks) (Key.single :: ks') feed
        (by simpa using hks) (by simpa using hks')
      simp at this
    · intro feed h1 h2
      rw [Option.mem_toList, Option.mem_def] at h1
      rcases List.mem_append.mp h2 with h2 | h2
      · obtain ⟨ks, hks⟩ := mem_matchFeeds_lookup _ _ _ h2
        have := hn [Key.multi] (Key.literal t.Value :: ks) feed
          (by simpa using h1) (by simpa using hks)
        simp at this
      · obtain ⟨ks, hks⟩ := mem_matchFeeds_lookup _ _ _ h2
        have := hn [Key.multi] (Key.single :: ks) feed
          (by simpa using h1) (by simpa using hks)
        simp at this

theorem keyOf_eq_multi_iff (h : TopicMatch) :
    keyOf h = Key.multi ↔ h.MatchType = MatchType.MultiLevelMatch := by
  cases hm : h.MatchType <;> simp [keyOf, hm]

theorem levelMatches_congr (h h0 t : TopicMatch) (hk : keyOf h = keyOf h0) :
    levelMatches h t = levelMatches h0 t := by
  cases hm : h.MatchType <;> cases hm0 : h0.MatchType <;>
    simp [keyOf, hm, hm0] at hk <;> simp [levelMatches, hm, hm0, hk]

theorem filterMatches_congr (f : List TopicMatch) : ∀ (f0 p : List TopicMatch),
    f.map keyOf = f0.map keyOf → filterMatches f p = filterMatches f0 p := by
  induction f with
  | nil =>
    intro f0 p h
    have : f0 = [] := by simpa using h.symm
    rw [this]
  | cons h f ih =>
    intro f0 p hk
    cases f0 with
    | nil => simp at hk
    | cons h0 f0 =>
      simp only [List.map_cons, List.cons.injEq] at hk
      obtain ⟨hk1, hk2⟩ := hk
      by_cases hm : h.MatchType = MatchType.MultiLevelMatch
      · have hm0 : h0.MatchType = MatchType.MultiLevelMatch := by
          rw [← keyOf_eq_multi_iff, ← hk1, keyOf_eq_multi_iff]
          exact hm
        rw [filterMatches_multi h f p hm, filterMatches_multi h0 f0 p hm0]
        have hl := congrArg List.length hk2
        simp only [List.length_map] at hl
        cases f <;> cases f0 <;> simp at hl ⊢
      · have hm0 : h0.MatchType ≠ MatchType.MultiLevelMatch := by
          rw [Ne, ← keyOf_eq_multi_iff, ← hk1, keyOf_eq_multi_iff]
          exact hm
        cases p with
        | nil => rw [filterMatches_cons_nil h f hm, filterMatches_cons_nil h0 f0 hm0]
        | cons t rest =>
          rw [filterMatches_cons_cons h t f rest hm, filterMatches_cons_cons h0 t f0 rest hm0,
            levelMatches_congr h h0 t hk1, ih f0 rest hk2]

theorem init_result (m : TopicMap) (f : List TopicMatch) :
    (m.InitFeedByTopic f).2.1 = (Node.lookup (f.map keyOf) m.root).getD m.nextFeed ∧
    (m.InitFeedByTopic f).2.2 = (Node.lookup (f.map keyOf) m.root).isSome :=
  initFeed_result m.nextFeed f m.root

theorem init_lookup (m : TopicMap) (f : List TopicMatch) (ks : List Key) :
    Node.lookup ks (m.InitFeedByTopic f).1.root =
      if ks = f.map keyOf then some (m.InitFeedByTopic f).2.1
      else Node.lookup ks m.root := by
  rw [(init_result m f).1]
  exact initFeed_lookup m.nextFeed f m.root ks

theorem init_nextFeed (m : TopicMap) (f : List TopicMatch) :
    (m.InitFeedByTopic f).1.nextFeed =
      if (Node.lookup (f.map keyOf) m.root).isSome then m.nextFeed else m.nextFeed + 1 := by
  simp only [TopicMap.InitFeedByTopic, (initFeed_result m.nextFeed f m.root).2]

theorem init_WF (m : TopicMap) (f : List TopicMatch) (h : m.WF) :
    (m.InitFeedByTopic f).1.WF := by
  obtain ⟨hinj, hlt⟩ := h
  have hres := (init_result m f).1
  cases hl : Node.lookup (f.map keyOf) m.root with
  | some f0 =>
    rw [hl] at hres
    simp only [Option.getD_some] at hres
    have hsame : ∀ ks, Node.lookup ks (m.InitFeedByTopic f).1.root = Node.lookup ks m.root := by
      intro ks
      rw [init_lookup, hres]
      split
      · next hks => rw [hks, hl]
      · rfl
    refine ⟨?_, ?_⟩
    · intro ks ks' feed h1 h2
      rw [hsame] at h1 h2
      exact hinj ks ks' feed h1 h2
    · intro ks feed h1
      rw [hsame] at h1
      rw [init_nextFeed, hl]
      exact hlt ks feed h1
  | none =>
    rw [hl] at hres
    simp only [Option.getD_none] at hres
    have hnew : ∀ ks feed, Node.lookup ks (m.InitFeedByTopic f).1.root = some feed →
        (ks = f.map keyOf ∧ feed = m.nextFeed) ∨
        (ks ≠ f.map keyOf ∧ Node.lookup ks m.root = some feed) := by
      intro ks feed h1
      rw [init_lookup, hres] at h1
      by_cases hks : ks = f.map keyOf
      · rw [if_pos hks] at h1
        exact Or.inl ⟨hks, (Option.some.inj h1).symm⟩
      · rw [if_neg hks] at h1
        exact Or.inr ⟨hks, h1⟩
    refine ⟨?_, ?_⟩
    · intro ks ks' feed h1 h2
      rcases hnew ks feed h1 with ⟨e1, g1⟩ | ⟨e1, g1⟩ <;>
        rcases hnew ks' feed h2 with ⟨e2, g2⟩ | ⟨e2, g2⟩
      · rw [e1, e2]
      · have hlt' := hlt ks' feed g2
        rw [g1] at hlt'
        exact absurd hlt' (Nat.lt_irrefl _)
      · have hlt' := hlt ks feed g1
        rw [g2] at hlt'
        exact absurd hlt' (Nat.lt_irrefl _)
      · exact hinj ks ks' feed g1 g2
    · intro ks feed h1
      rw [init_nextFeed, hl]
      simp only [Option.isSome_none, Bool.false_eq_true, if_false]
      rcases hnew ks feed h1 with ⟨_, g1⟩ | ⟨_, g1⟩
      · rw [g1]
        exact Nat.lt_succ_self _
      · exact Nat.lt_succ_of_lt (hlt ks feed g1)

theorem registerAll_spec (fs : List (List TopicMatch)) : ∀ m : TopicMap, m.WF →
    (registerAll m fs).1.WF ∧
    ∀ ks feed, Node.lookup ks (registerAll m fs).1.root = some feed ↔
      (Node.lookup ks m.root = some feed ∨
        ∃ f, (f, feed) ∈ (registerAll m fs).2 ∧ f.map keyOf = ks) := by
  induction fs with
  | nil =>
    intro m h
    exact ⟨h, fun ks feed => by simp [registerAll]⟩
  | cons f fs ih =>
    intro m h
    obtain ⟨hwf, hiff⟩ := ih (m.InitFeedByTopic f).1 (init_WF m f h)
    refine ⟨hwf, fun ks feed => ?_⟩
    simp only [registerAll] at hwf hiff ⊢
    rw [hiff ks feed, init_lookup]
    constructor
    · rintro (h1 | ⟨g, hg, hgk⟩)
      · by_cases hks : ks = f.map keyOf
        · rw [if_pos hks] at h1
          exact Or.inr ⟨f, by simp [← Option.some.inj h1], hks.symm⟩
        · rw [if_neg hks] at h1
          exact Or.inl h1
      · exact Or.inr ⟨g, List.mem_cons_of_mem _ hg, hgk⟩
    · rintro (h1 | ⟨g, hg, hgk⟩)
      · left
        by_cases hks : ks = f.map keyOf
        · rw [if_pos hks, (init_result m f).1, ← hks, h1]
          rfl
        · rw [if_neg hks]
          exact h1
      · rcases List.mem_cons.mp hg with heq | hg
        · obtain ⟨rfl, rfl⟩ := Prod.mk.inj heq
          left
          rw [if_pos hgk.symm]
        · exact Or.inr ⟨g, hg, hgk⟩

theorem NewTopicMap_lookup (ks : List Key) : Node.lookup ks NewTopicMap.root = none := by
  cases ks <;> simp [NewTopicMap]

theorem NewTopicMap_WF : NewTopicMap.WF := by
  refine ⟨?_, ?_⟩
  · intro ks ks' feed h1
    rw [NewTopicMap_lookup] at h1
    exact absurd h1 (by simp)
  · intro ks feed h1
    rw [NewTopicMap_lookup] at h1
    exact absurd h1 (by simp)

/-- C12: after registering any filters `fs` with `InitFeedByTopic` on a fresh
map, `GetFeedsThatMatchTopic(p)` has no duplicate, and a feed is in it exactly
when it is the feed that `InitFeedByTopic` returned for a registered filter
that matches `p`; two registered filters have the same feed only when they
select the same slot at every level.  (The descent reads only the `Value` of
the publish tokens, so this holds for every `p`.) -/
theorem C12_matching_feeds (fs : List (List TopicMatch)) (p : List TopicMatch) :
    ((registerAll NewTopicMap fs).1.GetFeedsThatMatchTopic p).Nodup ∧
    (∀ feed, feed ∈ (registerAll NewTopicMap fs).1.GetFeedsThatMatchTopic p ↔
      ∃ f, (f, feed) ∈ (registerAll NewTopicMap fs).2 ∧ filterMatches f p = true) ∧
    (∀ f f' feed, (f, feed) ∈ (registerAll NewTopicMap fs).2 →
      (f', feed) ∈ (registerAll NewTopicMap fs).2 → f.map keyOf = f'.map keyOf) := by
  obtain ⟨hwf, hiff⟩ := registerAll_spec fs NewTopicMap NewTopicMap_WF
  refine ⟨nodup_matchFeeds p _ hwf.1, fun feed => ?_, fun f f' feed h1 h2 => ?_⟩
  · rw [TopicMap.GetFeedsThatMatchTopic, mem_matchFeeds]
    constructor
    · rintro ⟨f0, hf0, hl⟩
      rcases (hiff _ feed).mp hl with h | ⟨f, hf, hk⟩
      · rw [NewTopicMap_lookup] at h
        exact absurd h (by simp)
      · exact ⟨f, hf, by rw [filterMatches_congr f f0 p hk]; exact hf0⟩
    · rintro ⟨f, hf, hm⟩
      exact ⟨f, hm, (hiff _ feed).mpr (Or.inr ⟨f, hf, rfl⟩)⟩
  · exact hwf.1 _ _ feed ((hiff _ feed).mpr (Or.inr ⟨f, h1, rfl⟩))
      ((hiff _ feed).mpr (Or.inr ⟨f', h2, rfl⟩))

set_option maxRecDepth 100000 in
/-- C12 on the tests: in `Basics`, the four filters that should match
`"foo/bar/quz"` do and the six others do not, and the map returns exactly the
feeds `0, 3, 1, 2` of the first four; in `AllPermutations`, the generator
yields 191 filters for `"aaa/bbb/ccc/ddd/eee/fff"`, all of them match, each
gets a feed of its own and the map returns 191 feeds. -/
theorem C12_matching_feeds_witness :
    (basicsShouldMatch.map fun b => filterMatches (tokensOf b) (tokensOf basicsPublish))
      = [true, true, true, true] ∧
    (basicsShouldNotMatch.map fun b => filterMatches (tokensOf b) (tokensOf basicsPublish))
      = [false, false, false, false, false, false] ∧
    (registerAll NewTopicMap
        ((basicsShouldMatch ++ basicsShouldNotMatch).map tokensOf)).2.map Prod.snd
      = [0, 1, 2, 3, 4, 5, 6, 7, 8, 9] ∧
    (registerAll NewTopicMap
        ((basicsShouldMatch ++ basicsShouldNotMatch).map tokensOf)).1.GetFeedsThatMatchTopic
        (tokensOf basicsPublish) = [0, 3, 1, 2] ∧
    (traverse (tokensOf permutationsTopic) []).length = 191 ∧
    (traverse (tokensOf permutationsTopic) []).all
      (fun g => filterMatches g (tokensOf permutationsTopic)) = true ∧
    (registerAll NewTopicMap (traverse (tokensOf permutationsTopic) [])).2.map Prod.snd
      = List.range 191 ∧
    ((registerAll NewTopicMap (traverse (tokensOf permutationsTopic) [])).1.GetFeedsThatMatchTopic
      (tokensOf permutationsTopic)).length = 191 ∧
    ((registerAll NewTopicMap (traverse (tokensOf permutationsTopic) [])).1.GetFeedsThatMatchTopic
      (tokensOf permutationsTopic)).Nodup :=
  ⟨by decide, by decide, by decide, by decide, by decide, by decide, by decide, by decide,
    (C12_matching_feeds (traverse (tokensOf permutationsTopic) [])
      (tokensOf permutationsTopic)).1⟩

theorem remove_result (m : TopicMap) (ts : List TopicMatch) :
    (m.RemoveFeedByTopic ts).2 = Node.lookup (ts.map keyOf) m.root :=
  removeFeed_result ts m.root

theorem remove_lookup (m : TopicMap) (ts : List TopicMatch) (ks : List Key) :
    Node.lookup ks (m.RemoveFeedByTopic ts).1.root =
      if ks = ts.map keyOf then none else Node.lookup ks m.root :=
  removeFeed_lookup ts m.root ks

theorem run_keeps (path : List Key) (f : Feed) (ops : List Op) : ∀ m : TopicMap,
    Node.lookup path m.root = some f →
    (∀ ts', Op.remove ts' ∈ ops → ts'.map keyOf ≠ path) →
    Node.lookup path (run m ops).root = some f := by
  induction ops with
  | nil => intro m h _; exact h
  | cons op ops ih =>
    intro m h hops
    have hops' : ∀ ts', Op.remove ts' ∈ ops → ts'.map keyOf ≠ path :=
      fun ts' hm => hops ts' (List.mem_cons_of_mem _ hm)
    have hstep : Node.lookup path (m.apply op).root = some f := by
      cases op with
      | init ts' =>
        simp only [TopicMap.apply]
        rw [init_lookup]
        by_cases hp : path = ts'.map keyOf
        · rw [if_pos hp, (init_result m ts').1, ← hp, h]
          rfl
        · rw [if_neg hp]
          exact h
      | remove ts' =>
        simp only [TopicMap.apply]
        rw [remove_lookup, if_neg (fun hp => hops ts' (List.mem_cons_self _ _) hp.symm)]
        exact h
    exact ih (m.apply op) hstep hops'

/-- C13: on a topic map with no feed installed for `ts` (a removal would
return nothing), `InitFeedByTopic(ts)` returns a feed `f` with
`alreadyExisted = false`; after any later calls that do not remove the feed of
`ts`, `InitFeedByTopic(ts)` returns `(f, true)` and `RemoveFeedByTopic(ts)`
returns that same `f`, after which `InitFeedByTopic(ts)` reports
`alreadyExisted = false` again. -/
theorem C13_create_once_remove_returns_same (m : TopicMap) (ts : List TopicMatch)
    (ops : List Op) (h0 : (m.RemoveFeedByTopic ts).2 = none)
    (hops : ∀ ts', Op.remove ts' ∈ ops → ts'.map keyOf ≠ ts.map keyOf) :
    ∃ f m1, m.InitFeedByTopic ts = (m1, f, false) ∧
      ((run m1 ops).InitFeedByTopic ts).2 = (f, true) ∧
      ((run m1 ops).RemoveFeedByTopic ts).2 = some f ∧
      (((run m1 ops).RemoveFeedByTopic ts).1.InitFeedByTopic ts).2.2 = false := by
  have hnone : Node.lookup (ts.map keyOf) m.root = none := by
    rw [← remove_result]
    exact h0
  have hf : (m.InitFeedByTopic ts).2.1 = m.nextFeed := by
    rw [(init_result m ts).1, hnone]
    rfl
  have he : (m.InitFeedByTopic ts).2.2 = false := by
    rw [(init_result m ts).2, hnone]
    rfl
  have h1 : Node.lookup (ts.map keyOf) (m.InitFeedByTopic ts).1.root = some m.nextFeed := by
    rw [init_lookup, if_pos rfl, hf]
  have h2 := run_keeps (ts.map keyOf) m.nextFeed ops _ h1 hops
  refine ⟨m.nextFeed, (m.InitFeedByTopic ts).1, ?_, ?_, ?_, ?_⟩
  · rw [← hf, ← he]
  · apply Prod.ext
    · rw [(init_result _ ts).1, h2]
      rfl
    · rw [(init_result _ ts).2, h2]
      rfl
  · rw [remove_result, h2]
  · rw [(init_result _ ts).2, remove_lookup, if_pos rfl]
    rfl

set_option maxRecDepth 100000 in
/-- C13 on a fresh map with `ts` the tokens of `"foo/bar/+"` and, in between,
the calls `InitFeedByTopic("#")`, `InitFeedByTopic("foo/bar/+")`,
`RemoveFeedByTopic("#")`. -/
theorem C13_create_once_remove_returns_same_witness :
    ∃ f m1, NewTopicMap.InitFeedByTopic (tokensOf [102, 111, 111, 47, 98, 97, 114, 47, 43])
        = (m1, f, false) ∧
      ((run m1 [Op.init (tokensOf [35]),
          Op.init (tokensOf [102, 111, 111, 47, 98, 97, 114, 47, 43]),
          Op.remove (tokensOf [35])]).InitFeedByTopic
        (tokensOf [102, 111, 111, 47, 98, 97, 114, 47, 43])).2 = (f, true) ∧
      ((run m1 [Op.init (tokensOf [35]),
          Op.init (tokensOf [102, 111, 111, 47, 98, 97, 114, 47, 43]),
          Op.remove (tokensOf [35])]).RemoveFeedByTopic
        (tokensOf [102, 111, 111, 47, 98, 97, 114, 47, 43])).2 = some f ∧
      (((run m1 [Op.init (tokensOf [35]),
          Op.init (tokensOf [102, 111, 111, 47, 98, 97, 114, 47, 43]),
          Op.remove (tokensOf [35])]).RemoveFeedByTopic
        (tokensOf [102, 111, 111, 47, 98, 97, 114, 47, 43])).1.InitFeedByTopic
        (tokensOf [102, 111, 111, 47, 98, 97, 114, 47, 43])).2.2 = false :=
  C13_create_once_remove_returns_same NewTopicMap
    (tokensOf [102, 111, 111, 47, 98, 97, 114, 47, 43])
    [Op.init (tokensOf [35]),
      Op.init (tokensOf [102, 111, 111, 47, 98, 97, 114, 47, 43]),
      Op.remove (tokensOf [35])]
    (by decide)
    (by
      intro ts' h
      have hts : ts' = tokensOf [35] := by
        simpa using h
      subst hts
      decide)

end broker

end MqttBroker
